import Mathlib

set_option maxRecDepth 4096

/-!
Verification of the structured-table client core (schema/descriptor module,
order-preserving key codec, value marshaller, model binder, key builder and
row-operation engine) against its natural-language specification.

The proto package (structured.go): data model, ValidateTableDesc,
TableDescFromSchema, TableSchemaFromDesc.  Go maps are embedded as
association lists where an entry prepended later shadows an earlier one, and
the uint32 IDs and monotonic counters are embedded as Nat (the spec calls the
counters monotonic; wraparound would need 2^32 columns in one schema).
-/

namespace Structured

/-- Column data types, from the proto Column.Type enum. -/
inductive ColumnType where
  | BYTES
  | INT
  | FLOAT
  | BOOL
  | STRING
deriving DecidableEq

/-- proto.Column: a name plus a data type (zero value BYTES). -/
structure Column where
  Name : String
  Typ : ColumnType := .BYTES
deriving DecidableEq

/-- proto.Table: just a name. -/
structure Table where
  Name : String
deriving DecidableEq

/-- proto.Index: a name and a uniqueness flag. -/
structure Index where
  Name : String
  Unique : Bool := false
deriving DecidableEq

/-- proto.ColumnDescriptor: a stable ID plus the embedded Column. -/
structure ColumnDescriptor where
  ID : Nat := 0
  Column : Column
deriving DecidableEq

/-- proto.IndexDescriptor: a stable ID, the embedded Index, and the IDs of the
indexed columns. -/
structure IndexDescriptor where
  ID : Nat := 0
  Index : Index
  ColumnIDs : List Nat := []
deriving DecidableEq

/-- proto.TableSchema_IndexByName: an index identifying its columns by name. -/
structure TableSchema_IndexByName where
  Index : Index
  ColumnNames : List String := []
deriving DecidableEq

/-- proto.TableSchema: embedded Table, columns, and indexes by column name. -/
structure TableSchema where
  Table : Table
  Columns : List Column := []
  Indexes : List TableSchema_IndexByName := []
deriving DecidableEq

/-- proto.TableDescriptor: embedded Table, column and index descriptors, and
the two monotonic ID counters. -/
structure TableDescriptor where
  Table : Table
  Columns : List ColumnDescriptor := []
  Indexes : List IndexDescriptor := []
  NextColumnID : Nat := 0
  NextIndexID : Nat := 0
deriving DecidableEq

/-- validateName from structured.go: a name must be non-empty and must not
contain a slash. -/
def validateName (name typ : String) : Option String :=
  if name.data.isEmpty then some ("empty " ++ typ ++ " name")
  else if name.data.contains '/' then some ("\"" ++ name ++ "\" may not contain \"/\"")
  else none

/-- The column loop of ValidateTableDesc: checks each column's name, name
uniqueness, ID uniqueness, and the strict NextColumnID bound, in source order,
threading the maps of seen names and seen IDs. -/
def validateColumns (seenNames : List String) (seenIDs : List Nat) (nextID : Nat) :
    List ColumnDescriptor → Option String
  | [] => none
  | c :: rest =>
    match validateName c.Column.Name "column" with
    | some e => some e
    | none =>
      if c.Column.Name ∈ seenNames then
        some ("duplicate column name: \"" ++ c.Column.Name ++ "\"")
      else if c.ID ∈ seenIDs then
        some ("column \"" ++ c.Column.Name ++ "\" duplicate ID: " ++ toString c.ID)
      else if nextID ≤ c.ID then
        some ("column \"" ++ c.Column.Name ++ "\" invalid ID (" ++ toString c.ID ++
          ") > next column ID (" ++ toString nextID ++ ")")
      else validateColumns (c.Column.Name :: seenNames) (c.ID :: seenIDs) nextID rest

/-- The index loop of ValidateTableDesc: checks each index's name, name
uniqueness, ID uniqueness, the strict NextIndexID bound, that the index has at
least one column, and that each referenced column ID exists, in source order. -/
def validateIndexes (knownColumnIDs : List Nat) (seenNames : List String)
    (seenIDs : List Nat) (nextID : Nat) : List IndexDescriptor → Option String
  | [] => none
  | i :: rest =>
    match validateName i.Index.Name "index" with
    | some e => some e
    | none =>
      if i.Index.Name ∈ seenNames then
        some ("duplicate index name: \"" ++ i.Index.Name ++ "\"")
      else if i.ID ∈ seenIDs then
        some ("index \"" ++ i.Index.Name ++ "\" duplicate ID: " ++ toString i.ID)
      else if nextID ≤ i.ID then
        some ("index \"" ++ i.Index.Name ++ "\" invalid index ID (" ++ toString i.ID ++
          ") > next index ID (" ++ toString nextID ++ ")")
      else if i.ColumnIDs.isEmpty then
        some ("index \"" ++ i.Index.Name ++ "\" must contain at least 1 column")
      else
        match i.ColumnIDs.find? (fun id => !(knownColumnIDs.contains id)) with
        | some id =>
          some ("index \"" ++ i.Index.Name ++ "\" contains unknown column ID " ++ toString id)
        | none => validateIndexes knownColumnIDs (i.Index.Name :: seenNames)
            (i.ID :: seenIDs) nextID rest

/-- ValidateTableDesc from structured.go: table-name checks, then at least one
column, then the column loop, then at least one index, then the index loop;
returns the first failure or none. -/
def ValidateTableDesc (desc : TableDescriptor) : Option String :=
  match validateName desc.Table.Name "table" with
  | some e => some e
  | none =>
    if desc.Columns.isEmpty then some "table must contain at least 1 column"
    else
      match validateColumns [] [] desc.NextColumnID desc.Columns with
      | some e => some e
      | none =>
        if desc.Indexes.isEmpty then some "table must contain at least 1 index"
        else validateIndexes (desc.Columns.map (·.ID)) [] [] desc.NextIndexID desc.Indexes

/-- Lowercasing as used by TableDescFromSchema (strings.ToLower; the source
only ever passes ASCII names). -/
def goToLower (s : String) : String := ⟨s.data.map Char.toLower⟩

/-- A column with its name lowercased, as TableDescFromSchema stores it. -/
def lowerColumn (c : Column) : Column := { c with Name := goToLower c.Name }

/-- The column loop of TableDescFromSchema: IDs are assigned from the
NextColumnID counter in declaration order. -/
def descColumnsFrom (next : Nat) : List Column → List ColumnDescriptor
  | [] => []
  | c :: rest => { ID := next, Column := lowerColumn c } :: descColumnsFrom (next + 1) rest

/-- The columnsByName map built by TableDescFromSchema, as an association
list; a later column with the same (lowercased) name overwrites an earlier
one, so later entries are listed first. -/
def columnIDsByName (next : Nat) : List Column → List (String × Nat)
  | [] => []
  | c :: rest => columnIDsByName (next + 1) rest ++ [(goToLower c.Name, next)]

/-- Association-list lookup (first match wins; our builders order entries so
that this matches Go map overwrite semantics). -/
def assocFind {α β : Type} [DecidableEq α] : List (α × β) → α → Option β
  | [], _ => none
  | (k, v) :: rest, key => if k = key then some v else assocFind rest key

/-- The index loop of TableDescFromSchema: IDs from the NextIndexID counter,
names lowercased, and column names translated through columnsByName (a missing
name yields the Go map zero value 0). -/
def descIndexesFrom (byName : List (String × Nat)) (next : Nat) :
    List TableSchema_IndexByName → List IndexDescriptor
  | [] => []
  | i :: rest =>
    { ID := next,
      Index := { i.Index with Name := goToLower i.Index.Name },
      ColumnIDs := i.ColumnNames.map (fun n => (assocFind byName n).getD 0) }
      :: descIndexesFrom byName (next + 1) rest

/-- TableDescFromSchema from structured.go: lowercases the table name, assigns
column IDs from NextColumnID (starting at 0), builds the name-to-ID map,
assigns index IDs from NextIndexID, and translates index column names to IDs. -/
def TableDescFromSchema (schema : TableSchema) : TableDescriptor :=
  let byName := columnIDsByName 0 schema.Columns
  { Table := { Name := goToLower schema.Table.Name },
    Columns := descColumnsFrom 0 schema.Columns,
    Indexes := descIndexesFrom byName 0 schema.Indexes,
    NextColumnID := schema.Columns.length,
    NextIndexID := schema.Indexes.length }

/-- Association-list lookup distributes over append, first list first. -/
theorem assocFind_append {α β : Type} [DecidableEq α] (a b : List (α × β)) (k : α) :
    assocFind (a ++ b) k =
      match assocFind a k with
      | some v => some v
      | none => assocFind b k := by
  induction a with
  | nil => simp [assocFind]
  | cons p rest ih =>
    by_cases h : p.1 = k
    · simp [assocFind, h]
    · simpa [assocFind, h] using ih

/-- Association-list lookup misses exactly when no pair carries the key. -/
theorem assocFind_eq_none {α β : Type} [DecidableEq α] (l : List (α × β)) (k : α) :
    assocFind l k = none ↔ ∀ p ∈ l, p.1 ≠ k := by
  induction l with
  | nil => simp [assocFind]
  | cons p rest ih =>
    by_cases h : p.1 = k
    · simp [assocFind, h]
    · simp [assocFind, h, ih]

/-- The columnsByID map built by TableSchemaFromDesc, as an association list
with Go map overwrite semantics (later entries listed first). -/
def columnNamesByID : List ColumnDescriptor → List (Nat × String)
  | [] => []
  | c :: rest => columnNamesByID rest ++ [(c.ID, c.Column.Name)]

/-- TableSchemaFromDesc from structured.go: keeps the embedded Table, strips
the column IDs, and translates each index's column IDs back to names through
columnsByID (a missing ID yields the Go map zero value, the empty string). -/
def TableSchemaFromDesc (desc : TableDescriptor) : TableSchema :=
  let byID := columnNamesByID desc.Columns
  { Table := desc.Table,
    Columns := desc.Columns.map (·.Column),
    Indexes := desc.Indexes.map (fun i =>
      { Index := i.Index,
        ColumnNames := i.ColumnIDs.map (fun id => (assocFind byID id).getD "") }) }

/-- If the column loop succeeds, every column ID is below the counter. -/
theorem validateColumns_none_lt (cols : List ColumnDescriptor) :
    ∀ (sN : List String) (sI : List Nat) (n : Nat),
      validateColumns sN sI n cols = none → ∀ c ∈ cols, c.ID < n := by
  induction cols with
  | nil => simp
  | cons c rest ih =>
    intro sN sI n h d hd
    rw [validateColumns] at h
    cases hv : validateName c.Column.Name "column" with
    | some e => rw [hv] at h; exact absurd h (by simp)
    | none =>
      rw [hv] at h
      by_cases h1 : c.Column.Name ∈ sN
      · rw [if_pos h1] at h; exact absurd h (by simp)
      rw [if_neg h1] at h
      by_cases h2 : c.ID ∈ sI
      · rw [if_pos h2] at h; exact absurd h (by simp)
      rw [if_neg h2] at h
      by_cases h3 : n ≤ c.ID
      · rw [if_pos h3] at h; exact absurd h (by simp)
      rw [if_neg h3] at h
      rcases List.mem_cons.mp hd with rfl | hd'
      · omega
      · exact ih _ _ _ h d hd'

/-- If the index loop succeeds, every index ID is below the counter. -/
theorem validateIndexes_none_lt (idxs : List IndexDescriptor) :
    ∀ (known : List Nat) (sN : List String) (sI : List Nat) (n : Nat),
      validateIndexes known sN sI n idxs = none → ∀ d ∈ idxs, d.ID < n := by
  induction idxs with
  | nil => simp
  | cons i rest ih =>
    intro known sN sI n h d hd
    rw [validateIndexes] at h
    cases hv : validateName i.Index.Name "index" with
    | some e => rw [hv] at h; exact absurd h (by simp)
    | none =>
      rw [hv] at h
      by_cases h1 : i.Index.Name ∈ sN
      · rw [if_pos h1] at h; exact absurd h (by simp)
      rw [if_neg h1] at h
      by_cases h2 : i.ID ∈ sI
      · rw [if_pos h2] at h; exact absurd h (by simp)
      rw [if_neg h2] at h
      by_cases h3 : n ≤ i.ID
      · rw [if_pos h3] at h; exact absurd h (by simp)
      rw [if_neg h3] at h
      by_cases h4 : i.ColumnIDs.isEmpty
      · rw [if_pos h4] at h; exact absurd h (by simp)
      rw [if_neg h4] at h
      cases hf : i.ColumnIDs.find? (fun id => !(known.contains id)) with
      | some id => rw [hf] at h; exact absurd h (by simp)
      | none =>
        rw [hf] at h
        rcases List.mem_cons.mp hd with rfl | hd'
        · omega
        · exact ih _ _ _ _ h d hd'

/-- The column loop succeeds on well-formed columns: valid names, no
duplicate name or ID (also against the already-seen sets), IDs below the
counter. -/
theorem validateColumns_pass (cols : List ColumnDescriptor) :
    ∀ (sN : List String) (sI : List Nat) (n : Nat),
      (∀ c ∈ cols, validateName c.Column.Name "column" = none) →
      (cols.map (·.Column.Name)).Nodup →
      (∀ c ∈ cols, c.Column.Name ∉ sN) →
      (cols.map (·.ID)).Nodup →
      (∀ c ∈ cols, c.ID ∉ sI) →
      (∀ c ∈ cols, c.ID < n) →
      validateColumns sN sI n cols = none := by
  induction cols with
  | nil => intro _ _ _ _ _ _ _ _ _; rfl
  | cons c rest ih =>
    intro sN sI n hnm hndN hsN hndI hsI hlt
    obtain ⟨hcN, hrestN⟩ : (∀ x ∈ rest, ¬x.Column.Name = c.Column.Name) ∧
        (rest.map (·.Column.Name)).Nodup := by simpa using hndN
    obtain ⟨hcI, hrestI⟩ : (∀ x ∈ rest, ¬x.ID = c.ID) ∧
        (rest.map (·.ID)).Nodup := by simpa using hndI
    rw [validateColumns, hnm c (by simp)]
    rw [if_neg (hsN c (by simp)), if_neg (hsI c (by simp)),
      if_neg (by have := hlt c (by simp); omega)]
    refine ih _ _ _ (fun d hd => hnm d (by simp [hd])) hrestN
      (fun d hd => ?_) hrestI (fun d hd => ?_)
      (fun d hd => hlt d (by simp [hd]))
    · simpa [hcN d hd] using hsN d (by simp [hd])
    · simpa [hcI d hd] using hsI d (by simp [hd])

/-- The index loop succeeds on well-formed indexes: valid names, no duplicate
name or ID, IDs below the counter, each index non-empty with only known
column IDs. -/
theorem validateIndexes_pass (idxs : List IndexDescriptor) :
    ∀ (known : List Nat) (sN : List String) (sI : List Nat) (n : Nat),
      (∀ d ∈ idxs, validateName d.Index.Name "index" = none) →
      (idxs.map (·.Index.Name)).Nodup →
      (∀ d ∈ idxs, d.Index.Name ∉ sN) →
      (idxs.map (·.ID)).Nodup →
      (∀ d ∈ idxs, d.ID ∉ sI) →
      (∀ d ∈ idxs, d.ID < n) →
      (∀ d ∈ idxs, d.ColumnIDs ≠ []) →
      (∀ d ∈ idxs, ∀ id ∈ d.ColumnIDs, id ∈ known) →
      validateIndexes known sN sI n idxs = none := by
  induction idxs with
  | nil => intro _ _ _ _ _ _ _ _ _ _ _ _; rfl
  | cons i rest ih =>
    intro known sN sI n hnm hndN hsN hndI hsI hlt hne hkn
    obtain ⟨hcN, hrestN⟩ : (∀ x ∈ rest, ¬x.Index.Name = i.Index.Name) ∧
        (rest.map (·.Index.Name)).Nodup := by simpa using hndN
    obtain ⟨hcI, hrestI⟩ : (∀ x ∈ rest, ¬x.ID = i.ID) ∧
        (rest.map (·.ID)).Nodup := by simpa using hndI
    rw [validateIndexes, hnm i (by simp)]
    rw [if_neg (hsN i (by simp)), if_neg (hsI i (by simp)),
      if_neg (by have := hlt i (by simp); omega),
      if_neg (by simpa using hne i (by simp))]
    have hf : i.ColumnIDs.find? (fun id => !(known.contains id)) = none := by
      rw [List.find?_eq_none]
      intro id hid
      simpa using hkn i (by simp) id hid
    rw [hf]
    refine ih _ _ _ _ (fun d hd => hnm d (by simp [hd])) hrestN
      (fun d hd => ?_) hrestI (fun d hd => ?_)
      (fun d hd => hlt d (by simp [hd])) (fun d hd => hne d (by simp [hd]))
      (fun d hd => hkn d (by simp [hd]))
    · simpa [hcN d hd] using hsN d (by simp [hd])
    · simpa [hcI d hd] using hsI d (by simp [hd])

/-- The exact message the validator produces for a column ID at or above the
NextColumnID counter. -/
def invalidColumnIDMsg (name : String) (id next : Nat) : String :=
  "column \"" ++ name ++ "\" invalid ID (" ++ toString id ++
    ") > next column ID (" ++ toString next ++ ")"

/-- The exact message the validator produces for an index ID at or above the
NextIndexID counter. -/
def invalidIndexIDMsg (name : String) (id next : Nat) : String :=
  "index \"" ++ name ++ "\" invalid index ID (" ++ toString id ++
    ") > next index ID (" ++ toString next ++ ")"

/-- When the earlier checks all pass and the first offending column is one
whose ID reaches the counter, the column loop reports exactly the invalid-ID
message for that column. -/
theorem validateColumns_first_invalid (pre : List ColumnDescriptor) :
    ∀ (c₀ : ColumnDescriptor) (post : List ColumnDescriptor)
      (sN : List String) (sI : List Nat) (n : Nat),
      (∀ c ∈ pre ++ [c₀], validateName c.Column.Name "column" = none) →
      ((pre ++ [c₀]).map (·.Column.Name)).Nodup →
      (∀ c ∈ pre ++ [c₀], c.Column.Name ∉ sN) →
      ((pre ++ [c₀]).map (·.ID)).Nodup →
      (∀ c ∈ pre ++ [c₀], c.ID ∉ sI) →
      (∀ c ∈ pre, c.ID < n) →
      n ≤ c₀.ID →
      validateColumns sN sI n (pre ++ c₀ :: post) =
        some (invalidColumnIDMsg c₀.Column.Name c₀.ID n) := by
  induction pre with
  | nil =>
    intro c₀ post sN sI n hnm _ hsN _ hsI _ hge
    rw [List.nil_append, validateColumns, hnm c₀ (by simp)]
    rw [if_neg (hsN c₀ (by simp)), if_neg (hsI c₀ (by simp)), if_pos hge]
    rfl
  | cons c pre' ih =>
    intro c₀ post sN sI n hnm hndN hsN hndI hsI hlt hge
    rw [List.cons_append, List.map_cons, List.nodup_cons] at hndN hndI
    obtain ⟨hcN0, hrestN⟩ := hndN
    obtain ⟨hcI0, hrestI⟩ := hndI
    rw [List.cons_append, validateColumns, hnm c (by simp)]
    rw [if_neg (hsN c (by simp)), if_neg (hsI c (by simp)),
      if_neg (by have := hlt c (by simp); omega)]
    refine ih c₀ post _ _ _ (fun d hd => hnm d (by simp [List.mem_append] at hd ⊢; tauto))
      hrestN (fun d hd => ?_) hrestI (fun d hd => ?_)
      (fun d hd => hlt d (by simp [hd])) hge
    · have h1 : d.Column.Name ≠ c.Column.Name := fun he =>
        hcN0 (he ▸ List.mem_map_of_mem (·.Column.Name) hd)
      have h2 := hsN d (by simp [List.mem_append] at hd ⊢; tauto)
      intro hmem
      rcases List.mem_cons.mp hmem with he | hm
      · exact h1 he
      · exact h2 hm
    · have h1 : d.ID ≠ c.ID := fun he => hcI0 (he ▸ List.mem_map_of_mem (·.ID) hd)
      have h2 := hsI d (by simp [List.mem_append] at hd ⊢; tauto)
      intro hmem
      rcases List.mem_cons.mp hmem with he | hm
      · exact h1 he
      · exact h2 hm

/-- When the earlier checks all pass and the first offending index is one
whose ID reaches the counter, the index loop reports exactly the invalid-ID
message for that index. -/
theorem validateIndexes_first_invalid (pre : List IndexDescriptor) :
    ∀ (i₀ : IndexDescriptor) (post : List IndexDescriptor)
      (known : List Nat) (sN : List String) (sI : List Nat) (n : Nat),
      (∀ d ∈ pre ++ [i₀], validateName d.Index.Name "index" = none) →
      ((pre ++ [i₀]).map (·.Index.Name)).Nodup →
      (∀ d ∈ pre ++ [i₀], d.Index.Name ∉ sN) →
      ((pre ++ [i₀]).map (·.ID)).Nodup →
      (∀ d ∈ pre ++ [i₀], d.ID ∉ sI) →
      (∀ d ∈ pre, d.ID < n) →
      (∀ d ∈ pre, d.ColumnIDs ≠ []) →
      (∀ d ∈ pre, ∀ id ∈ d.ColumnIDs, id ∈ known) →
      n ≤ i₀.ID →
      validateIndexes known sN sI n (pre ++ i₀ :: post) =
        some (invalidIndexIDMsg i₀.Index.Name i₀.ID n) := by
  induction pre with
  | nil =>
    intro i₀ post known sN sI n hnm _ hsN _ hsI _ _ _ hge
    rw [List.nil_append, validateIndexes, hnm i₀ (by simp)]
    rw [if_neg (hsN i₀ (by simp)), if_neg (hsI i₀ (by simp)), if_pos hge]
    rfl
  | cons i pre' ih =>
    intro i₀ post known sN sI n hnm hndN hsN hndI hsI hlt hne hkn hge
    rw [List.cons_append, List.map_cons, List.nodup_cons] at hndN hndI
    obtain ⟨hcN0, hrestN⟩ := hndN
    obtain ⟨hcI0, hrestI⟩ := hndI
    rw [List.cons_append, validateIndexes, hnm i (by simp)]
    rw [if_neg (hsN i (by simp)), if_neg (hsI i (by simp)),
      if_neg (by have := hlt i (by simp); omega),
      if_neg (by simpa using hne i (by simp))]
    have hf : i.ColumnIDs.find? (fun id => !(known.contains id)) = none := by
      rw [List.find?_eq_none]
      intro id hid
      simpa using hkn i (by simp) id hid
    rw [hf]
    refine ih i₀ post _ _ _ _ (fun d hd => hnm d (by simp [List.mem_append] at hd ⊢; tauto))
      hrestN (fun d hd => ?_) hrestI (fun d hd => ?_)
      (fun d hd => hlt d (by simp [hd])) (fun d hd => hne d (by simp [hd]))
      (fun d hd => hkn d (by simp [hd])) hge
    · have h1 : d.Index.Name ≠ i.Index.Name := fun he =>
        hcN0 (he ▸ List.mem_map_of_mem (·.Index.Name) hd)
      have h2 := hsN d (by simp [List.mem_append] at hd ⊢; tauto)
      intro hmem
      rcases List.mem_cons.mp hmem with he | hm
      · exact h1 he
      · exact h2 hm
    · have h1 : d.ID ≠ i.ID := fun he => hcI0 (he ▸ List.mem_map_of_mem (·.ID) hd)
      have h2 := hsI d (by simp [List.mem_append] at hd ⊢; tauto)
      intro hmem
      rcases List.mem_cons.mp hmem with he | hm
      · exact h1 he
      · exact h2 hm

/-- A descriptor with a duplicate column name and no indexes at all. -/
def dupColumnNoIndexDesc : TableDescriptor :=
  { Table := { Name := "foo" },
    Columns := [{ ID := 0, Column := { Name := "bar" } },
                { ID := 0, Column := { Name := "bar" } }],
    Indexes := [],
    NextColumnID := 1 }

/-- C6 counterexample: a descriptor with a duplicate column name and no
indexes does NOT yield the missing-index error, contrary to the claim that
the at-least-one-index invariant is checked before column uniqueness. -/
theorem validateTableDesc_dup_column_no_index_not_missing_index :
    ValidateTableDesc dupColumnNoIndexDesc ≠ some "table must contain at least 1 index" := by
  decide

/-- C6 (amended): the validator returns exactly one message, the first
failure in source order, where the per-column checks (name validity, name
uniqueness, ID uniqueness, ID bound) run before the at-least-one-index check;
in particular the duplicate-column/no-index descriptor yields the
duplicate-column message, and on any index-free descriptor with a valid table
name and at least one column the result is the first column-loop failure if
there is one and the missing-index message only otherwise. -/
theorem validateTableDesc_first_error_source_order :
    ValidateTableDesc dupColumnNoIndexDesc = some "duplicate column name: \"bar\"" ∧
    ∀ d : TableDescriptor, d.Indexes = [] → d.Columns ≠ [] →
      validateName d.Table.Name "table" = none →
      ValidateTableDesc d =
        (match validateColumns [] [] d.NextColumnID d.Columns with
         | some e => some e
         | none => some "table must contain at least 1 index") := by
  refine ⟨by decide, fun d hidx hcols hname => ?_⟩
  rw [ValidateTableDesc, hname, if_neg (by simpa using hcols)]
  cases hc : validateColumns [] [] d.NextColumnID d.Columns with
  | some e => rfl
  | none => rw [if_pos (by simp [hidx])]

/-- An index-free, column-valid descriptor used to witness the amended C6
ordering statement. -/
def noIndexDesc : TableDescriptor :=
  { Table := { Name := "foo" },
    Columns := [{ ID := 0, Column := { Name := "bar" } }],
    Indexes := [],
    NextColumnID := 1 }

/-- Witness instantiating the amended C6 ordering statement on a concrete
index-free descriptor whose column loop passes. -/
theorem validateTableDesc_first_error_source_order_witness :
    ValidateTableDesc noIndexDesc = some "table must contain at least 1 index" := by
  have h := validateTableDesc_first_error_source_order.2 noIndexDesc rfl
    (by decide) (by decide)
  exact h.trans (by decide)

/-- C7: ValidateTableDesc accepts IDs strictly below the counters and rejects
the first column (resp. index) whose ID reaches the counter with exactly the
invalid-ID message, provided the checks that source order runs earlier all
pass.  Part one: a descriptor that validates has every column ID below
NextColumnID and every index ID below NextIndexID.  Part two: with a valid
table name and columns whose earlier checks pass, the first column with
NextColumnID less than or equal to its ID produces exactly the
invalid-column-ID message.  Part three: the analogous statement for index IDs
and NextIndexID. -/
theorem validateTableDesc_id_bounds :
    (∀ d : TableDescriptor, ValidateTableDesc d = none →
      (∀ c ∈ d.Columns, c.ID < d.NextColumnID) ∧
      (∀ i ∈ d.Indexes, i.ID < d.NextIndexID)) ∧
    (∀ (d : TableDescriptor) (pre : List ColumnDescriptor) (c₀ : ColumnDescriptor)
        (post : List ColumnDescriptor),
      d.Columns = pre ++ c₀ :: post →
      validateName d.Table.Name "table" = none →
      (∀ c ∈ pre ++ [c₀], validateName c.Column.Name "column" = none) →
      ((pre ++ [c₀]).map (·.Column.Name)).Nodup →
      ((pre ++ [c₀]).map (·.ID)).Nodup →
      (∀ c ∈ pre, c.ID < d.NextColumnID) →
      d.NextColumnID ≤ c₀.ID →
      ValidateTableDesc d = some (invalidColumnIDMsg c₀.Column.Name c₀.ID d.NextColumnID)) ∧
    (∀ (d : TableDescriptor) (pre : List IndexDescriptor) (i₀ : IndexDescriptor)
        (post : List IndexDescriptor),
      d.Indexes = pre ++ i₀ :: post →
      validateName d.Table.Name "table" = none →
      d.Columns ≠ [] →
      (∀ c ∈ d.Columns, validateName c.Column.Name "column" = none) →
      (d.Columns.map (·.Column.Name)).Nodup →
      (d.Columns.map (·.ID)).Nodup →
      (∀ c ∈ d.Columns, c.ID < d.NextColumnID) →
      (∀ i ∈ pre ++ [i₀], validateName i.Index.Name "index" = none) →
      ((pre ++ [i₀]).map (·.Index.Name)).Nodup →
      ((pre ++ [i₀]).map (·.ID)).Nodup →
      (∀ i ∈ pre, i.ID < d.NextIndexID) →
      (∀ i ∈ pre, i.ColumnIDs ≠ []) →
      (∀ i ∈ pre, ∀ id ∈ i.ColumnIDs, id ∈ d.Columns.map (·.ID)) →
      d.NextIndexID ≤ i₀.ID →
      ValidateTableDesc d = some (invalidIndexIDMsg i₀.Index.Name i₀.ID d.NextIndexID)) := by
  refine ⟨fun d h => ?_, fun d pre c₀ post hcols hname hnm hndN hndI hlt hge => ?_,
    fun d pre i₀ post hidxs hname hcne hcnm hcndN hcndI hclt hnm hndN hndI hlt hne hkn hge => ?_⟩
  · rw [ValidateTableDesc] at h
    cases hv : validateName d.Table.Name "table" with
    | some e => rw [hv] at h; exact absurd h (by simp)
    | none =>
      rw [hv] at h
      by_cases he : d.Columns.isEmpty
      · rw [if_pos he] at h; exact absurd h (by simp)
      rw [if_neg he] at h
      cases hc : validateColumns [] [] d.NextColumnID d.Columns with
      | some e => rw [hc] at h; exact absurd h (by simp)
      | none =>
        rw [hc] at h
        by_cases hie : d.Indexes.isEmpty
        · rw [if_pos hie] at h; exact absurd h (by simp)
        rw [if_neg hie] at h
        exact ⟨validateColumns_none_lt _ _ _ _ hc,
          validateIndexes_none_lt _ _ _ _ _ h⟩
  · rw [ValidateTableDesc, hname, if_neg (by simp [hcols])]
    rw [hcols, validateColumns_first_invalid pre c₀ post [] [] d.NextColumnID hnm hndN
      (by simp) hndI (by simp) hlt hge]
  · rw [ValidateTableDesc, hname, if_neg (by simpa using hcne)]
    rw [validateColumns_pass d.Columns [] [] d.NextColumnID hcnm hcndN (by simp) hcndI
      (by simp) hclt]
    rw [if_neg (by simp [hidxs])]
    rw [hidxs, validateIndexes_first_invalid pre i₀ post (d.Columns.map (·.ID)) [] []
      d.NextIndexID hnm hndN (by simp) hndI (by simp) hlt hne hkn hge]

/-- A well-formed one-column one-index descriptor that validates. -/
def okDesc : TableDescriptor :=
  { Table := { Name := "foo" },
    Columns := [{ ID := 0, Column := { Name := "bar" } }],
    Indexes := [{ ID := 0, Index := { Name := "bar" }, ColumnIDs := [0] }],
    NextColumnID := 1,
    NextIndexID := 1 }

/-- A descriptor whose only column carries ID 1 with NextColumnID 1. -/
def badColumnIDDesc : TableDescriptor :=
  { Table := { Name := "foo" },
    Columns := [{ ID := 1, Column := { Name := "bar" } }],
    Indexes := [],
    NextColumnID := 1 }

/-- A descriptor whose only index carries ID 1 with NextIndexID 1. -/
def badIndexIDDesc : TableDescriptor :=
  { Table := { Name := "foo" },
    Columns := [{ ID := 0, Column := { Name := "bar" } }],
    Indexes := [{ ID := 1, Index := { Name := "baz" }, ColumnIDs := [0] }],
    NextColumnID := 1,
    NextIndexID := 1 }

/-- Witness instantiating all three parts of the C7 statement on concrete
descriptors. -/
theorem validateTableDesc_id_bounds_witness :
    ((∀ c ∈ okDesc.Columns, c.ID < okDesc.NextColumnID) ∧
      (∀ i ∈ okDesc.Indexes, i.ID < okDesc.NextIndexID)) ∧
    ValidateTableDesc badColumnIDDesc = some (invalidColumnIDMsg "bar" 1 1) ∧
    ValidateTableDesc badIndexIDDesc = some (invalidIndexIDMsg "baz" 1 1) := by
  refine ⟨validateTableDesc_id_bounds.1 okDesc (by decide), ?_, ?_⟩
  · exact validateTableDesc_id_bounds.2.1 badColumnIDDesc []
      { ID := 1, Column := { Name := "bar" } } [] rfl (by decide) (by decide)
      (by decide) (by decide) (by decide) (by decide)
  · exact validateTableDesc_id_bounds.2.2 badIndexIDDesc []
      { ID := 1, Index := { Name := "baz" }, ColumnIDs := [0] } [] rfl (by decide)
      (by decide) (by decide) (by decide) (by decide) (by decide) (by decide)
      (by decide) (by decide) (by decide) (by decide) (by decide) (by decide)

/-- A successful association-list lookup returns a pair of the list. -/
theorem assocFind_mem {α β : Type} [DecidableEq α] (l : List (α × β)) (k : α) (v : β)
    (h : assocFind l k = some v) : (k, v) ∈ l := by
  induction l with
  | nil => simp [assocFind] at h
  | cons p rest ih =>
    rw [assocFind] at h
    by_cases he : p.1 = k
    · rw [if_pos he] at h
      obtain rfl : p.2 = v := by simpa using h
      have hp : p = (k, p.2) := by
        obtain ⟨p1, p2⟩ := p
        simp_all
      rw [← hp]
      exact List.mem_cons_self _ _
    · rw [if_neg he] at h
      exact List.mem_cons_of_mem _ (ih h)

/-- Mapping a function that fixes every element is the identity. -/
theorem listMapEqSelf {α : Type} (l : List α) (f : α → α) (h : ∀ x ∈ l, f x = x) :
    l.map f = l := by
  induction l with
  | nil => rfl
  | cons x rest ih => simp [h x (by simp), ih (fun y hy => h y (by simp [hy]))]

/-- The converted columns carry the lowercased originals in order. -/
theorem descColumnsFrom_map_column (cols : List Column) :
    ∀ n : Nat, (descColumnsFrom n cols).map (·.Column) = cols.map lowerColumn := by
  induction cols with
  | nil => intro n; rfl
  | cons c rest ih => intro n; simp [descColumnsFrom, ih]

/-- The converted columns carry the lowercased names in order. -/
theorem descColumnsFrom_map_name (cols : List Column) :
    ∀ n : Nat, (descColumnsFrom n cols).map (·.Column.Name) =
      cols.map (fun c => goToLower c.Name) := by
  induction cols with
  | nil => intro n; rfl
  | cons c rest ih => intro n; simp [descColumnsFrom, ih, lowerColumn]

/-- Conversion assigns consecutive column IDs starting at the counter. -/
theorem descColumnsFrom_map_id (cols : List Column) :
    ∀ n : Nat, (descColumnsFrom n cols).map (·.ID) = List.range' n cols.length := by
  induction cols with
  | nil => intro n; rfl
  | cons c rest ih => intro n; simp [descColumnsFrom, ih, List.range']

/-- Every key of the columnsByName map is a lowercased column name. -/
theorem keys_columnIDsByName (cols : List Column) :
    ∀ (n : Nat) (p : String × Nat), p ∈ columnIDsByName n cols →
      p.1 ∈ cols.map (fun c => goToLower c.Name) := by
  induction cols with
  | nil => simp [columnIDsByName]
  | cons c rest ih =>
    intro n p hp
    rw [columnIDsByName] at hp
    rcases List.mem_append.mp hp with h | h
    · exact List.mem_cons_of_mem _ (ih (n + 1) p h)
    · obtain rfl : p = (goToLower c.Name, n) := by simpa using h
      simp

/-- Every value of the columnsByName map lies in the assigned ID range. -/
theorem values_columnIDsByName (cols : List Column) :
    ∀ (n : Nat) (p : String × Nat), p ∈ columnIDsByName n cols →
      n ≤ p.2 ∧ p.2 < n + cols.length := by
  induction cols with
  | nil => simp [columnIDsByName]
  | cons c rest ih =>
    intro n p hp
    rw [columnIDsByName] at hp
    rcases List.mem_append.mp hp with h | h
    · have := ih (n + 1) p h
      constructor <;> [omega; (simp only [List.length_cons]; omega)]
    · obtain rfl : p = (goToLower c.Name, n) := by simpa using h
      simp

/-- Every ID key of the columnsByID map of a converted column list is at
least the starting counter. -/
theorem fst_ge_columnNamesByID (cols : List Column) :
    ∀ (n : Nat) (p : Nat × String), p ∈ columnNamesByID (descColumnsFrom n cols) →
      n ≤ p.1 := by
  induction cols with
  | nil => simp [descColumnsFrom, columnNamesByID]
  | cons c rest ih =>
    intro n p hp
    rw [descColumnsFrom, columnNamesByID] at hp
    rcases List.mem_append.mp hp with h | h
    · have := ih (n + 1) p h
      omega
    · obtain rfl : p = (n, (lowerColumn c).Name) := by simpa using h
      simp

/-- Looking a lowercased column name up in columnsByName and the resulting ID
up in columnsByID of the converted descriptor recovers the name, even with
duplicate names (both maps resolve to the same, latest, column). -/
theorem byName_lookup_byID (cols : List Column) :
    ∀ (n : Nat) (name : String), name ∈ cols.map (fun c => goToLower c.Name) →
      ∃ id, assocFind (columnIDsByName n cols) name = some id ∧
        assocFind (columnNamesByID (descColumnsFrom n cols)) id = some name := by
  induction cols with
  | nil => simp
  | cons c rest ih =>
    intro n name hn
    rw [columnIDsByName, descColumnsFrom, columnNamesByID]
    by_cases hr : name ∈ rest.map (fun c => goToLower c.Name)
    · obtain ⟨id, h1, h2⟩ := ih (n + 1) name hr
      refine ⟨id, ?_, ?_⟩
      · rw [assocFind_append, h1]
      · rw [assocFind_append, h2]
    · have hc : name = goToLower c.Name := by
        have hn' : name = goToLower c.Name ∨ ∃ a ∈ rest, goToLower a.Name = name := by
          simpa using hn
        rcases hn' with h | ⟨a, ha, he⟩
        · exact h
        · exact absurd (he ▸ List.mem_map_of_mem (fun c => goToLower c.Name) ha) hr
      have h1 : assocFind (columnIDsByName (n + 1) rest) name = none := by
        rw [assocFind_eq_none]
        intro p hp he
        exact hr (he ▸ keys_columnIDsByName rest (n + 1) p hp)
      have h2 : assocFind (columnNamesByID (descColumnsFrom (n + 1) rest)) n = none := by
        rw [assocFind_eq_none]
        intro p hp he
        have := fst_ge_columnNamesByID rest (n + 1) p hp
        omega
      refine ⟨n, ?_, ?_⟩
      · rw [assocFind_append, h1]
        simp [assocFind, hc]
      · rw [assocFind_append, h2]
        simp [assocFind, lowerColumn, hc]

/-- The index conversion lowercases names and assigns consecutive IDs. -/
theorem descIndexesFrom_map_name (idxs : List TableSchema_IndexByName)
    (byName : List (String × Nat)) :
    ∀ n : Nat, (descIndexesFrom byName n idxs).map (·.Index.Name) =
      idxs.map (fun i => goToLower i.Index.Name) := by
  induction idxs with
  | nil => intro n; rfl
  | cons i rest ih => intro n; simp [descIndexesFrom, ih]

/-- Index conversion assigns consecutive index IDs starting at the counter. -/
theorem descIndexesFrom_map_id (idxs : List TableSchema_IndexByName)
    (byName : List (String × Nat)) :
    ∀ n : Nat, (descIndexesFrom byName n idxs).map (·.ID) =
      List.range' n idxs.length := by
  induction idxs with
  | nil => intro n; rfl
  | cons i rest ih => intro n; simp [descIndexesFrom, ih, List.range']

/-- Every converted index descriptor comes from a schema index, with the
lowercased name and the name-translated column IDs. -/
theorem mem_descIndexesFrom (idxs : List TableSchema_IndexByName)
    (byName : List (String × Nat)) :
    ∀ (n : Nat) (d : IndexDescriptor), d ∈ descIndexesFrom byName n idxs →
      ∃ i ∈ idxs, d.Index = { i.Index with Name := goToLower i.Index.Name } ∧
        d.ColumnIDs = i.ColumnNames.map (fun nm => (assocFind byName nm).getD 0) := by
  induction idxs with
  | nil => simp [descIndexesFrom]
  | cons i rest ih =>
    intro n d hd
    rw [descIndexesFrom] at hd
    rcases List.mem_cons.mp hd with rfl | h
    · exact ⟨i, by simp⟩
    · obtain ⟨j, hj, h1, h2⟩ := ih (n + 1) d h
      exact ⟨j, List.mem_cons_of_mem _ hj, h1, h2⟩

/-- Translating a converted index descriptor list back to names recovers the
original indexes, for lowercase index names whose column names exist among
the (lowercased) schema column names. -/
theorem descIndexesFrom_roundtrip (cols : List Column) (idxs : List TableSchema_IndexByName) :
    ∀ n : Nat,
      (∀ i ∈ idxs, goToLower i.Index.Name = i.Index.Name) →
      (∀ i ∈ idxs, ∀ nm ∈ i.ColumnNames, nm ∈ cols.map (fun c => goToLower c.Name)) →
      (descIndexesFrom (columnIDsByName 0 cols) n idxs).map
        (fun i =>
          { Index := i.Index,
            ColumnNames := i.ColumnIDs.map
              (fun id => (assocFind (columnNamesByID (descColumnsFrom 0 cols)) id).getD "") }) =
        idxs := by
  induction idxs with
  | nil => intro n _ _; rfl
  | cons i rest ih =>
    intro n hlow hmem
    rw [descIndexesFrom, List.map_cons]
    rw [ih (n + 1) (fun j hj => hlow j (by simp [hj])) (fun j hj => hmem j (by simp [hj]))]
    obtain ⟨⟨iname, iuniq⟩, icols⟩ := i
    refine congrArg (fun x => x :: rest) ?_
    simp only [TableSchema_IndexByName.mk.injEq, Index.mk.injEq, and_true]
    refine ⟨by simpa using hlow _ (List.mem_cons_self _ _), ?_⟩
    rw [List.map_map]
    refine listMapEqSelf _ _ (fun nm hnm => ?_)
    obtain ⟨id, hf1, hf2⟩ :=
      byName_lookup_byID cols 0 nm (hmem _ (List.mem_cons_self _ _) nm hnm)
    simp only [Function.comp, hf1, Option.getD_some, hf2]

/-- The hypothesis of the round-trip claim: all table, column and index names
are already lowercase and slash-free, and every index column name is a column
name of the schema. -/
def schemaConforming (s : TableSchema) : Prop :=
  goToLower s.Table.Name = s.Table.Name ∧
  ¬s.Table.Name.data.contains '/' ∧
  (∀ c ∈ s.Columns, goToLower c.Name = c.Name ∧ ¬c.Name.data.contains '/') ∧
  (∀ i ∈ s.Indexes, goToLower i.Index.Name = i.Index.Name ∧
    ¬i.Index.Name.data.contains '/') ∧
  (∀ i ∈ s.Indexes, ∀ nm ∈ i.ColumnNames, nm ∈ s.Columns.map (·.Name))

instance (s : TableSchema) : Decidable (schemaConforming s) := by
  unfold schemaConforming
  infer_instance

/-- The additional structural hypotheses the validator needs beyond
schemaConforming: non-empty names, duplicate-free column and index names, at
least one column and one index, and no column-free index. -/
def schemaWellFormed (s : TableSchema) : Prop :=
  validateName s.Table.Name "table" = none ∧
  s.Columns ≠ [] ∧
  (∀ c ∈ s.Columns, validateName c.Name "column" = none) ∧
  (s.Columns.map (·.Name)).Nodup ∧
  s.Indexes ≠ [] ∧
  (∀ i ∈ s.Indexes, validateName i.Index.Name "index" = none) ∧
  (s.Indexes.map (·.Index.Name)).Nodup ∧
  (∀ i ∈ s.Indexes, i.ColumnNames ≠ [])

instance (s : TableSchema) : Decidable (schemaWellFormed s) := by
  unfold schemaWellFormed
  infer_instance

/-- C1 (amended): on a conforming schema the descriptor conversion round
trips back to the original schema; the produced descriptor passes
ValidateTableDesc when the schema additionally is structurally well formed
(non-empty, duplicate-free names; at least one column and one index; no
column-free index). -/
theorem tableSchema_roundtrip (s : TableSchema) (h : schemaConforming s) :
    TableSchemaFromDesc (TableDescFromSchema s) = s ∧
    (schemaWellFormed s → ValidateTableDesc (TableDescFromSchema s) = none) := by
  obtain ⟨htab, _, hcols, hidxn, hidxc⟩ := h
  have hnames : s.Columns.map (·.Name) = s.Columns.map (fun c => goToLower c.Name) := by
    refine List.map_congr_left (fun c hc => ?_)
    exact ((hcols c hc).1).symm
  constructor
  · obtain ⟨⟨name⟩, cols, idxs⟩ := s
    simp only at hnames htab hcols hidxn hidxc
    simp only [TableSchemaFromDesc, TableDescFromSchema, TableSchema.mk.injEq]
    refine ⟨by simpa using htab, ?_, ?_⟩
    · rw [descColumnsFrom_map_column]
      refine listMapEqSelf _ _ (fun c hc => ?_)
      obtain ⟨cn, ct⟩ := c
      have := (hcols _ hc).1
      simp only [lowerColumn]
      simp_all
    · refine descIndexesFrom_roundtrip cols idxs 0 (fun i hi => (hidxn i hi).1)
        (fun i hi nm hnm => ?_)
      rw [← hnames]
      exact hidxc i hi nm hnm
  · intro hwf
    obtain ⟨hvt, hcne, hvcols, hndc, hine, hvidx, hndi, hicne⟩ := hwf
    rw [ValidateTableDesc, TableDescFromSchema]
    simp only
    rw [htab, hvt]
    have hlen : (descColumnsFrom 0 s.Columns).length = s.Columns.length := by
      have := congrArg List.length (descColumnsFrom_map_id s.Columns 0)
      simpa using this
    rw [if_neg (by
      simp only [List.isEmpty_iff]
      intro he
      exact hcne (by simpa [he] using hlen.symm))]
    have hnm' : (descColumnsFrom 0 s.Columns).map (·.Column.Name) = s.Columns.map (·.Name) := by
      rw [descColumnsFrom_map_name, hnames]
    rw [validateColumns_pass _ _ _ _ ?hvn ?hnd (by simp) ?hid (by simp) ?hlt]
    case hvn =>
      intro c hc
      have : c.Column.Name ∈ s.Columns.map (·.Name) := by
        rw [← hnm']
        exact List.mem_map_of_mem _ hc
      obtain ⟨c', hc', he⟩ := List.mem_map.mp this
      exact he ▸ hvcols c' hc'
    case hnd => rw [hnm']; exact hndc
    case hid => rw [descColumnsFrom_map_id]; exact List.nodup_range' _ _
    case hlt =>
      intro c hc
      have : c.ID ∈ List.range' 0 s.Columns.length := by
        rw [← descColumnsFrom_map_id]
        exact List.mem_map_of_mem _ hc
      have := List.mem_range'_1.mp this
      omega
    have hinm' : (descIndexesFrom (columnIDsByName 0 s.Columns) 0 s.Indexes).map
        (·.Index.Name) = s.Indexes.map (·.Index.Name) := by
      rw [descIndexesFrom_map_name]
      exact List.map_congr_left (fun i hi => (hidxn i hi).1)
    rw [if_neg (by
      simp only [List.isEmpty_iff]
      intro he
      have := congrArg List.length (descIndexesFrom_map_id s.Indexes
        (columnIDsByName 0 s.Columns) 0)
      simp [he] at this
      exact hine (List.length_eq_zero.mp this.symm))]
    rw [validateIndexes_pass _ _ _ _ _ ?hvin ?hind (by simp) ?hiid (by simp) ?hilt ?hinec ?hknown]
    case hvin =>
      intro d hd
      have : d.Index.Name ∈ s.Indexes.map (·.Index.Name) := by
        rw [← hinm']
        exact List.mem_map_of_mem _ hd
      obtain ⟨i', hi', he⟩ := List.mem_map.mp this
      exact he ▸ hvidx i' hi'
    case hind => rw [hinm']; exact hndi
    case hiid => rw [descIndexesFrom_map_id]; exact List.nodup_range' _ _
    case hilt =>
      intro d hd
      have : d.ID ∈ List.range' 0 s.Indexes.length := by
        rw [← descIndexesFrom_map_id]
        exact List.mem_map_of_mem _ hd
      have := List.mem_range'_1.mp this
      omega
    case hinec =>
      intro d hd
      obtain ⟨i, hi, _, h2⟩ := mem_descIndexesFrom s.Indexes _ 0 d hd
      rw [h2]
      simpa using hicne i hi
    case hknown =>
      intro d hd id hid
      obtain ⟨i, hi, _, h2⟩ := mem_descIndexesFrom s.Indexes _ 0 d hd
      rw [h2] at hid
      obtain ⟨nm, hnm, he⟩ := List.mem_map.mp hid
      have hmem : nm ∈ s.Columns.map (fun c => goToLower c.Name) := by
        rw [← hnames]
        exact hidxc i hi nm hnm
      obtain ⟨id', h1, _⟩ := byName_lookup_byID s.Columns 0 nm hmem
      rw [← he, h1, Option.getD_some]
      have hpair := assocFind_mem _ _ _ h1
      have := values_columnIDsByName s.Columns 0 (nm, id') hpair
      rw [descColumnsFrom_map_id]
      rw [List.mem_range'_1]
      simpa using this.2

/-- A schema that conforms (lowercase, slash-free, existing index columns)
but has no indexes at all. -/
def noIndexSchema : TableSchema :=
  { Table := { Name := "foo" },
    Columns := [{ Name := "a" }],
    Indexes := [] }

/-- C1 counterexample: the no-index schema satisfies the claim's hypothesis
and round trips, yet its descriptor fails ValidateTableDesc, so the claim's
validation conjunct is false as stated. -/
theorem tableSchema_roundtrip_counterexample :
    schemaConforming noIndexSchema ∧
    TableSchemaFromDesc (TableDescFromSchema noIndexSchema) = noIndexSchema ∧
    ValidateTableDesc (TableDescFromSchema noIndexSchema) ≠ none := by
  refine ⟨by decide, by decide, by decide⟩

/-- The schema of the source round-trip test: three columns and two indexes. -/
def testSchema : TableSchema :=
  { Table := { Name := "foo" },
    Columns := [{ Name := "a" }, { Name := "b" }, { Name := "c" }],
    Indexes := [{ Index := { Name := "a", Unique := true }, ColumnNames := ["a"] },
                { Index := { Name := "b" }, ColumnNames := ["a", "b"] }] }

/-- Witness instantiating the amended C1 statement on the source test
schema. -/
theorem tableSchema_roundtrip_witness :
    TableSchemaFromDesc (TableDescFromSchema testSchema) = testSchema ∧
    ValidateTableDesc (TableDescFromSchema testSchema) = none := by
  have h := tableSchema_roundtrip testSchema (by decide)
  exact ⟨h.1, h.2 (by decide)⟩

end Structured

/-!
The order-preserving key codec consumed by table.go through the
util/encoding package, which is not under src/.  The functions below are
modelled from the spec, section 4.1: byte strings with an escaped terminator,
tagged signed and unsigned varints, and the 8-byte sign-adjusted float
pattern.  Byte strings are lists of byte values; machine bit patterns are Nat
with explicit bounds.
-/

namespace RoachEncoding

/-- A byte string, as a list of byte values. -/
abbrev Bytes := List Nat

/-- Decidable equality for results, so that concrete codec runs can be
checked by evaluation. -/
instance {ε α : Type} [DecidableEq ε] [DecidableEq α] : DecidableEq (Except ε α) := fun x y =>
  match x, y with
  | .ok a, .ok b => if h : a = b then .isTrue (h ▸ rfl) else .isFalse (by simp [h])
  | .error a, .error b => if h : a = b then .isTrue (h ▸ rfl) else .isFalse (by simp [h])
  | .ok _, .error _ => .isFalse (by simp)
  | .error _, .ok _ => .isFalse (by simp)

/-- Big-endian byte representation, written with enough fuel to be
structurally recursive (the fuel argument strictly dominates the dividend). -/
def natToBytesAux (fuel n : Nat) : Bytes :=
  match fuel with
  | 0 => []
  | fuel' + 1 => if n = 0 then [] else natToBytesAux fuel' (n / 256) ++ [n % 256]

/-- Big-endian minimal byte representation of a natural number (empty for
zero). -/
def natToBytes (n : Nat) : Bytes := natToBytesAux n n

/-- The value of a big-endian byte string. -/
def bytesToNat (bs : Bytes) : Nat := bs.foldl (fun a b => a * 256 + b) 0

/-- Left-pad a byte string with zero bytes to the given length. -/
def leftPad (len : Nat) (bs : Bytes) : Bytes := List.replicate (len - bs.length) 0 ++ bs

/-- Modelled from the spec: the escape transform of the bytes codec; a zero
byte inside the payload becomes 0x00 0xFF. -/
def escapeBytes : Bytes → Bytes
  | [] => []
  | b :: rest => (if b = 0 then [0, 255] else [b]) ++ escapeBytes rest

/-- Modelled from the spec: EncodeBytes appends the escaped payload and the
terminator 0x00 0x01 to the buffer. -/
def EncodeBytes (buf : Bytes) (s : Bytes) : Bytes := buf ++ escapeBytes s ++ [0, 1]

/-- Modelled from the spec: the scanning loop of DecodeBytes; 0x00 0xFF
unescapes to a zero byte, 0x00 0x01 terminates, anything else after 0x00 is a
codec error, as is running out of input. -/
def decodeBytesAux (acc : Bytes) : Bytes → Except String (Bytes × Bytes)
  | [] => .error "roachencoding: truncated bytes"
  | b :: rest =>
    if b = 0 then
      match rest with
      | [] => .error "roachencoding: truncated bytes"
      | e :: rest2 =>
        if e = 1 then .ok (rest2, acc.reverse)
        else if e = 255 then decodeBytesAux (0 :: acc) rest2
        else .error "roachencoding: invalid escape byte"
    else decodeBytesAux (b :: acc) rest

/-- Modelled from the spec: DecodeBytes returns the remaining bytes and the
decoded value. -/
def DecodeBytes (buf : Bytes) : Except String (Bytes × Bytes) := decodeBytesAux [] buf

/-- Modelled from the spec: the signed varint payload.  A non-negative value
gets a tag byte 0x80 plus the length of its big-endian bytes; a negative
value gets a tag below 0x80 encoding the length, followed by the offset
2^(8 len) + v padded to exactly that length, so that decoding reads the tag
and exactly the indicated number of bytes. -/
def varintBytes (v : Int) : Bytes :=
  if v < 0 then
    let n := (-v).toNat
    let len := max (natToBytes (n - 1)).length 1
    (128 - len) :: leftPad len (natToBytes (2 ^ (8 * len) - n))
  else
    let bs := natToBytes v.toNat
    (128 + bs.length) :: bs

/-- Modelled from the spec: EncodeVarint appends the signed varint to the
buffer. -/
def EncodeVarint (buf : Bytes) (v : Int) : Bytes := buf ++ varintBytes v

/-- Modelled from the spec: DecodeVarint reads the tag and the indicated
number of bytes and returns the remaining bytes and the value. -/
def DecodeVarint : Bytes → Except String (Bytes × Int)
  | [] => .error "roachencoding: truncated varint"
  | t :: rest =>
    if 128 ≤ t then
      let len := t - 128
      if rest.length < len then .error "roachencoding: truncated varint"
      else .ok (rest.drop len, (bytesToNat (rest.take len) : Int))
    else
      let len := 128 - t
      if rest.length < len then .error "roachencoding: truncated varint"
      else .ok (rest.drop len, (bytesToNat (rest.take len) : Int) - 2 ^ (8 * len))

/-- Modelled from the spec: the unsigned varint payload, a length byte
followed by the value's big-endian bytes. -/
def uvarintBytes (n : Nat) : Bytes :=
  let bs := natToBytes n
  bs.length :: bs

/-- Modelled from the spec: EncodeUvarint appends the unsigned varint. -/
def EncodeUvarint (buf : Bytes) (n : Nat) : Bytes := buf ++ uvarintBytes n

/-- Modelled from the spec: DecodeUvarint reads the length byte and that many
bytes. -/
def DecodeUvarint : Bytes → Except String (Bytes × Nat)
  | [] => .error "roachencoding: truncated uvarint"
  | t :: rest =>
    if rest.length < t then .error "roachencoding: truncated uvarint"
    else .ok (rest.drop t, bytesToNat (rest.take t))

/-- Modelled from the spec: the float codec at the bit-pattern level; the 8
big-endian bytes of the IEEE-754 pattern with all bits flipped when the sign
bit is set and only the sign bit flipped otherwise (EncodeNumericFloat is a
placeholder in the source; this is the design recommendation of section
4.1). -/
def floatBytes (bits : Nat) : Bytes :=
  leftPad 8 (natToBytes (if bits < 2 ^ 63 then bits + 2 ^ 63 else 2 ^ 64 - 1 - bits))

/-- Modelled from the spec: EncodeNumericFloat appends the 8 adjusted
pattern bytes. -/
def EncodeNumericFloat (buf : Bytes) (bits : Nat) : Bytes := buf ++ floatBytes bits

/-- Modelled from the spec: DecodeNumericFloat reads 8 bytes and undoes the
sign adjustment, returning the remaining bytes and the bit pattern. -/
def DecodeNumericFloat (buf : Bytes) : Except String (Bytes × Nat) :=
  if buf.length < 8 then .error "roachencoding: truncated float"
  else
    .ok (buf.drop 8,
      if 2 ^ 63 ≤ bytesToNat (buf.take 8) then bytesToNat (buf.take 8) - 2 ^ 63
      else 2 ^ 64 - 1 - bytesToNat (buf.take 8))

/-- Appending one byte multiplies the value by 256 and adds the byte. -/
theorem bytesToNat_concat (bs : Bytes) (b : Nat) :
    bytesToNat (bs ++ [b]) = bytesToNat bs * 256 + b := by
  simp [bytesToNat, List.foldl_append]

/-- With sufficient fuel the representation does not depend on the fuel. -/
theorem natToBytesAux_fuel (fuel₁ : Nat) :
    ∀ (fuel₂ n : Nat), n ≤ fuel₁ → n ≤ fuel₂ → natToBytesAux fuel₁ n = natToBytesAux fuel₂ n := by
  induction fuel₁ with
  | zero =>
    intro fuel₂ n h1 _
    obtain rfl : n = 0 := by omega
    cases fuel₂ <;> simp [natToBytesAux]
  | succ f₁ ih =>
    intro fuel₂ n h1 h2
    by_cases h : n = 0
    · subst h
      cases fuel₂ <;> simp [natToBytesAux]
    · obtain ⟨f₂, rfl⟩ : ∃ f₂, fuel₂ = f₂ + 1 := ⟨fuel₂ - 1, by omega⟩
      rw [natToBytesAux, natToBytesAux, if_neg h, if_neg h,
        ih f₂ (n / 256) (by omega) (by omega)]

/-- Unfolding natToBytes on a positive number. -/
theorem natToBytes_pos (n : Nat) (h : n ≠ 0) :
    natToBytes n = natToBytes (n / 256) ++ [n % 256] := by
  rw [natToBytes, natToBytes]
  obtain ⟨m, rfl⟩ : ∃ m, n = m + 1 := ⟨n - 1, by omega⟩
  rw [natToBytesAux, if_neg h]
  rw [natToBytesAux_fuel m ((m + 1) / 256) ((m + 1) / 256) (by omega) (by omega)]

/-- The big-endian representation evaluates back to the number. -/
theorem bytesToNat_natToBytes (n : Nat) : bytesToNat (natToBytes n) = n := by
  induction n using Nat.strong_induction_on with
  | _ n ih =>
    by_cases h : n = 0
    · simp [h, natToBytes, natToBytesAux, bytesToNat]
    · rw [natToBytes_pos n h, bytesToNat_concat,
        ih (n / 256) (Nat.div_lt_self (Nat.pos_of_ne_zero h) (by omega))]
      omega

/-- A number below 256 to the k fits in k bytes. -/
theorem natToBytes_length_le (n : Nat) : ∀ k : Nat, n < 256 ^ k → (natToBytes n).length ≤ k := by
  induction n using Nat.strong_induction_on with
  | _ n ih =>
    intro k hk
    by_cases h : n = 0
    · simp [h, natToBytes, natToBytesAux]
    · rw [natToBytes_pos n h]
      have hk0 : k ≠ 0 := by
        intro he
        rw [he] at hk
        omega
      have hdiv : n / 256 < 256 ^ (k - 1) := by
        rw [Nat.div_lt_iff_lt_mul (by omega)]
        calc n < 256 ^ k := hk
        _ = 256 ^ (k - 1) * 256 := by
          rw [← pow_succ]
          congr 1
          omega
      have := ih (n / 256) (Nat.div_lt_self (Nat.pos_of_ne_zero h) (by omega)) (k - 1) hdiv
      simp only [List.length_append, List.length_cons, List.length_nil]
      omega

/-- Every number is below 256 to the length of its representation. -/
theorem lt_pow_natToBytes_length (n : Nat) : n < 256 ^ (natToBytes n).length := by
  induction n using Nat.strong_induction_on with
  | _ n ih =>
    by_cases h : n = 0
    · simp [h, natToBytes, natToBytesAux]
    · rw [natToBytes_pos n h]
      have hle := ih (n / 256) (Nat.div_lt_self (Nat.pos_of_ne_zero h) (by omega))
      have key : n < 256 ^ ((natToBytes (n / 256)).length + 1) := by
        have h2 : n < (n / 256 + 1) * 256 := by omega
        have h3 : (n / 256 + 1) * 256 ≤ 256 ^ (natToBytes (n / 256)).length * 256 :=
          Nat.mul_le_mul_right 256 (Nat.succ_le_of_lt hle)
        rw [pow_succ]
        omega
      simpa using key

/-- Leading zero bytes do not change the value. -/
theorem bytesToNat_replicate_zero (k : Nat) (bs : Bytes) :
    bytesToNat (List.replicate k 0 ++ bs) = bytesToNat bs := by
  induction k with
  | zero => rfl
  | succ k ih => simpa [bytesToNat, List.replicate_succ] using ih

/-- Left padding does not change the value. -/
theorem bytesToNat_leftPad (len : Nat) (bs : Bytes) :
    bytesToNat (leftPad len bs) = bytesToNat bs := by
  rw [leftPad, bytesToNat_replicate_zero]

/-- Left padding to at least the current length yields exactly that length. -/
theorem leftPad_length (len : Nat) (bs : Bytes) (h : bs.length ≤ len) :
    (leftPad len bs).length = len := by
  simp only [leftPad, List.length_append, List.length_replicate]
  omega

/-- Taking exactly the length of the first part of an append returns it. -/
theorem take_append_len {α : Type} (xs ys : List α) (len : Nat) (h : xs.length = len) :
    (xs ++ ys).take len = xs := by
  subst h
  exact List.take_left xs ys

/-- Dropping exactly the length of the first part of an append removes it. -/
theorem drop_append_len {α : Type} (xs ys : List α) (len : Nat) (h : xs.length = len) :
    (xs ++ ys).drop len = ys := by
  subst h
  exact List.drop_left xs ys

/-- 2 to a byte-multiple exponent is a power of 256. -/
theorem two_pow_eight_mul (len : Nat) : (2 : Nat) ^ (8 * len) = 256 ^ len := by
  rw [pow_mul]
  norm_num

/-- Decoding an encoded byte string consumes exactly the encoding and returns
the original payload; no well-formedness of the payload is needed. -/
theorem decodeBytes_encodeBytes (s : Bytes) (rest : Bytes) :
    DecodeBytes (EncodeBytes [] s ++ rest) = .ok (rest, s) := by
  suffices h : ∀ (s acc rest : Bytes),
      decodeBytesAux acc (escapeBytes s ++ ([0, 1] ++ rest)) = .ok (rest, acc.reverse ++ s) by
    have := h s [] rest
    simpa [DecodeBytes, EncodeBytes] using this
  intro s
  induction s with
  | nil =>
    intro acc rest
    rw [escapeBytes, List.nil_append, List.cons_append, decodeBytesAux.eq_def]
    norm_num
  | cons b s' ih =>
    intro acc rest
    by_cases hb : b = 0
    · subst hb
      rw [escapeBytes, if_pos rfl]
      simp only [List.cons_append, List.nil_append]
      rw [decodeBytesAux.eq_def]
      norm_num
      simpa using ih (0 :: acc) rest
    · rw [escapeBytes, if_neg hb]
      simp only [List.cons_append, List.nil_append]
      rw [decodeBytesAux.eq_def]
      simp only [if_neg hb]
      simpa using ih (b :: acc) rest

/-- Decoding an encoded signed varint consumes exactly the encoding and
returns the value, for values representable as 64-bit integers. -/
theorem decodeVarint_varintBytes (v : Int) (rest : Bytes) (hlo : -(2 ^ 63) ≤ v) :
    DecodeVarint (varintBytes v ++ rest) = .ok (rest, v) := by
  by_cases hv : v < 0
  · rw [varintBytes, if_pos hv]
    have hn1 : 1 ≤ (-v).toNat := by omega
    have hnle : (-v).toNat ≤ 2 ^ 63 := by omega
    set n := (-v).toNat with hn
    set len := max (natToBytes (n - 1)).length 1 with hlendef
    have hlen1 : 1 ≤ len := by omega
    have hlen8 : len ≤ 8 := by
      have h256 : n - 1 < 256 ^ 8 := by norm_num; omega
      have := natToBytes_length_le (n - 1) 8 h256
      omega
    have hnpow : n ≤ 256 ^ len := by
      have h1 : n - 1 < 256 ^ (natToBytes (n - 1)).length := lt_pow_natToBytes_length (n - 1)
      have h2 : (256 : Nat) ^ (natToBytes (n - 1)).length ≤ 256 ^ len :=
        Nat.pow_le_pow_right (by omega) (by omega)
      omega
    have hle2 : n ≤ 2 ^ (8 * len) := by
      rw [two_pow_eight_mul]
      exact hnpow
    have hm : 2 ^ (8 * len) - n < 256 ^ len := by
      rw [two_pow_eight_mul]
      have : 0 < (256 : Nat) ^ len := Nat.pos_pow_of_pos len (by omega)
      omega
    have hpay : (leftPad len (natToBytes (2 ^ (8 * len) - n))).length = len :=
      leftPad_length len _ (natToBytes_length_le _ len hm)
    simp only [List.cons_append, DecodeVarint]
    rw [if_neg (by omega)]
    have hlen' : 128 - (128 - len) = len := by omega
    rw [hlen']
    rw [if_neg (by simp only [List.length_append, hpay]; omega)]
    rw [take_append_len _ rest len hpay, drop_append_len _ rest len hpay,
      bytesToNat_leftPad, bytesToNat_natToBytes]
    have hvn : (n : Int) = -v := by omega
    have hval : ((2 ^ (8 * len) - n : Nat) : Int) - 2 ^ (8 * len) = v := by
      rw [Nat.cast_sub hle2]
      push_cast
      omega
    rw [hval]
  · rw [varintBytes, if_neg hv]
    simp only [List.cons_append, DecodeVarint]
    rw [if_pos (by omega)]
    have hsub : 128 + (natToBytes v.toNat).length - 128 = (natToBytes v.toNat).length := by
      omega
    rw [hsub, if_neg (by simp), List.take_left, List.drop_left, bytesToNat_natToBytes]
    have hcast : ((v.toNat : Nat) : Int) = v := by omega
    rw [hcast]

/-- Decoding an encoded unsigned varint consumes exactly the encoding and
returns the value. -/
theorem decodeUvarint_uvarintBytes (n : Nat) (rest : Bytes) :
    DecodeUvarint (uvarintBytes n ++ rest) = .ok (rest, n) := by
  simp only [uvarintBytes, List.cons_append, DecodeUvarint]
  rw [if_neg (by simp), List.take_left, List.drop_left, bytesToNat_natToBytes]

/-- Decoding an encoded float pattern consumes exactly the 8 bytes and
returns the pattern, for 64-bit patterns. -/
theorem decodeNumericFloat_floatBytes (bits : Nat) (rest : Bytes) (h : bits < 2 ^ 64) :
    DecodeNumericFloat (floatBytes bits ++ rest) = .ok (rest, bits) := by
  have h256 : (256 : Nat) ^ 8 = 2 ^ 64 := by norm_num
  have hlen : (floatBytes bits).length = 8 := by
    rw [floatBytes]
    refine leftPad_length 8 _ (natToBytes_length_le _ 8 ?_)
    by_cases hb : bits < 2 ^ 63
    · rw [if_pos hb, h256]
      omega
    · rw [if_neg hb, h256]
      omega
  rw [DecodeNumericFloat, if_neg (by simp only [List.length_append, hlen]; omega)]
  rw [take_append_len _ rest 8 hlen, drop_append_len _ rest 8 hlen,
    floatBytes, bytesToNat_leftPad, bytesToNat_natToBytes]
  by_cases hb : bits < 2 ^ 63
  · rw [if_pos hb, if_pos (by omega)]
    have hval : bits + 2 ^ 63 - 2 ^ 63 = bits := by omega
    rw [hval]
  · rw [if_neg hb, if_neg (by omega)]
    have hval : 2 ^ 64 - 1 - (2 ^ 64 - 1 - bits) = bits := by omega
    rw [hval]

end RoachEncoding

/-!
The table client of table.go: field values and the value marshaller, the key
builder, the model binder and the batch row operations.  Go reflection is
embedded by carrying each field's kind explicitly; strings are carried as
their UTF-8 bytes; float fields are carried as the 64-bit IEEE-754 bit
pattern of their (exactly widened) value, so the marshaller's
Float64bits/Float64frombits moves are pure bit moves.
-/

namespace TableClient

open RoachEncoding (Bytes)

/-- The Go integer widths the source handles (reflect.Int and reflect.Uint
are 64-bit). -/
inductive IntWidth where
  | w8
  | w16
  | w32
  | w64
deriving DecidableEq

/-- Number of bits of an integer width. -/
def IntWidth.bits : IntWidth → Nat
  | .w8 => 8
  | .w16 => 16
  | .w32 => 32
  | .w64 => 64

/-- The kind of a record field, mirroring the reflect kinds the source
handles: bool, sized signed and unsigned integers, float, string, byte
slice. -/
inductive TKind where
  | bool
  | sint (w : IntWidth)
  | uint (w : IntWidth)
  | float
  | str
  | byts
deriving DecidableEq

/-- A record field value of a supported scalar kind. -/
inductive TValue where
  | bool (b : Bool)
  | sint (w : IntWidth) (v : Int)
  | uint (w : IntWidth) (n : Nat)
  | float (bits : Nat)
  | str (s : Bytes)
  | byts (bs : Bytes)
deriving DecidableEq

/-- The kind of a value. -/
def TValue.kind : TValue → TKind
  | .bool _ => .bool
  | .sint w _ => .sint w
  | .uint w _ => .uint w
  | .float _ => .float
  | .str _ => .str
  | .byts _ => .byts

/-- Machine-representable values: integers fit their width, float patterns
fit 64 bits. -/
def TValue.wellFormed : TValue → Prop
  | .bool _ => True
  | .sint w v => -(2 ^ (w.bits - 1)) ≤ v ∧ v < 2 ^ (w.bits - 1)
  | .uint w n => n < 2 ^ w.bits
  | .float bits => bits < 2 ^ 64
  | .str _ => True
  | .byts _ => True

instance (v : TValue) : Decidable v.wellFormed := by
  cases v <;> simp only [TValue.wellFormed] <;> infer_instance

/-- The Go zero value of each kind. -/
def TKind.zero : TKind → TValue
  | .bool => .bool false
  | .sint w => .sint w 0
  | .uint w => .uint w 0
  | .float => .float 0
  | .str => .str []
  | .byts => .byts []

/-- proto.Value: at most one of an integer payload and a byte payload.  The
checksum field (initialized over the key at put time) carries no information
the claims depend on and is not modelled. -/
structure PValue where
  Integer : Option Int := none
  Bytes : Option RoachEncoding.Bytes := none
deriving DecidableEq

/-- int64(u) for a uint64 value: two's-complement reinterpretation. -/
def int64OfUInt64 (n : Nat) : Int := if n < 2 ^ 63 then (n : Int) else (n : Int) - 2 ^ 64

/-- uint64(i) for an int64 value: the nonnegative residue modulo 2^64. -/
def uint64OfInt64 (i : Int) : Nat := (i % 2 ^ 64).toNat

/-- int<w>(x): the truncating conversion reflect.SetInt performs when storing
an int64 into a sized signed field. -/
def truncInt (w : IntWidth) (i : Int) : Int :=
  (i + 2 ^ (w.bits - 1)) % 2 ^ w.bits - 2 ^ (w.bits - 1)

/-- uint<w>(x): the truncating conversion reflect.SetUint performs. -/
def truncUint (w : IntWidth) (n : Nat) : Nat := n % 2 ^ w.bits

/-- marshalTableValue from table.go: strings and byte slices become the byte
payload; bool becomes integer 0 or 1; signed integers their value; unsigned
integers and float bit patterns the int64 reinterpretation.  The source's
remaining cases (proto messages, binary marshalers) concern kinds outside
the supported-scalar model. -/
def marshalTableValue : TValue → PValue
  | .str s => { Bytes := some s }
  | .byts bs => { Bytes := some bs }
  | .bool b => { Integer := some (if b then 1 else 0) }
  | .sint _ v => { Integer := some v }
  | .uint _ n => { Integer := some (int64OfUInt64 n) }
  | .float bits => { Integer := some (int64OfUInt64 bits) }

/-- unmarshalTableValue from table.go: a nil source zeroes the destination;
an integer payload into a string or byte-slice field is an error, as is a
byte payload into a bool, integer or float field; a missing byte payload
reads as empty and a missing integer payload reads as 0 (GetInteger). -/
def unmarshalTableValue (src : Option PValue) (k : TKind) : Except String TValue :=
  match src with
  | none => .ok k.zero
  | some s =>
    match k with
    | .str =>
      if s.Integer.isSome then .error "unable to unmarshal integer value"
      else .ok (.str (s.Bytes.getD []))
    | .byts =>
      if s.Integer.isSome then .error "unable to unmarshal integer value"
      else .ok (.byts (s.Bytes.getD []))
    | .bool =>
      if s.Bytes.isSome then .error "unable to unmarshal byts value"
      else .ok (.bool (s.Integer.getD 0 != 0))
    | .sint w =>
      if s.Bytes.isSome then .error "unable to unmarshal byts value"
      else .ok (.sint w (truncInt w (s.Integer.getD 0)))
    | .uint w =>
      if s.Bytes.isSome then .error "unable to unmarshal byts value"
      else .ok (.uint w (truncUint w (uint64OfInt64 (s.Integer.getD 0))))
    | .float =>
      if s.Bytes.isSome then .error "unable to unmarshal byts value"
      else .ok (.float (uint64OfInt64 (s.Integer.getD 0)))

/-- Reinterpreting a uint64 as int64 and back is the identity. -/
theorem uint64_int64_id (n : Nat) (h : n < 2 ^ 64) :
    uint64OfInt64 (int64OfUInt64 n) = n := by
  rw [int64OfUInt64, uint64OfInt64]
  by_cases hn : n < 2 ^ 63
  · rw [if_pos hn]
    omega
  · rw [if_neg hn]
    omega

/-- Truncation to a width is the identity on values that fit. -/
theorem truncInt_id (w : IntWidth) (i : Int)
    (h1 : -(2 ^ (w.bits - 1)) ≤ i) (h2 : i < 2 ^ (w.bits - 1)) :
    truncInt w i = i := by
  rw [truncInt]
  have hp : (2 : Int) ^ w.bits = 2 ^ (w.bits - 1) * 2 := by
    cases w <;> rfl
  rw [Int.emod_eq_of_lt (by omega) (by omega)]
  omega

/-- Width bounds never exceed 64 bits. -/
theorem IntWidth.bits_le (w : IntWidth) : w.bits ≤ 64 := by
  cases w <;> simp [IntWidth.bits]

/-- C5: marshalling a supported scalar field value and unmarshalling the
result into a field of the same kind restores the value; unmarshalling fails
when the payload kind does not match the destination: an integer payload
into a string or byte-slice field, or a byte payload into a bool, integer or
float field. -/
theorem marshalTableValue_roundtrip_mismatch :
    (∀ v : TValue, v.wellFormed →
      unmarshalTableValue (some (marshalTableValue v)) v.kind = .ok v) ∧
    (∀ (s : PValue) (k : TKind), s.Integer.isSome → (k = .str ∨ k = .byts) →
      ∃ e, unmarshalTableValue (some s) k = .error e) ∧
    (∀ (s : PValue) (k : TKind), s.Bytes.isSome →
      (k = .bool ∨ (∃ w, k = .sint w) ∨ (∃ w, k = .uint w) ∨ k = .float) →
      ∃ e, unmarshalTableValue (some s) k = .error e) := by
  refine ⟨fun v hv => ?_, fun s k hi hk => ?_, fun s k hb hk => ?_⟩
  · cases v with
    | bool b => cases b <;> rfl
    | sint w v =>
      obtain ⟨h1, h2⟩ := hv
      simp [marshalTableValue, TValue.kind, unmarshalTableValue, truncInt_id w v h1 h2]
    | uint w n =>
      have hn : n < 2 ^ w.bits := hv
      have h64 : n < 2 ^ 64 :=
        lt_of_lt_of_le hn (Nat.pow_le_pow_right (by omega) w.bits_le)
      simp [marshalTableValue, TValue.kind, unmarshalTableValue,
        uint64_int64_id n h64, truncUint, Nat.mod_eq_of_lt hn]
    | float bits =>
      have h64 : bits < 2 ^ 64 := hv
      simp [marshalTableValue, TValue.kind, unmarshalTableValue, uint64_int64_id bits h64]
    | str s => rfl
    | byts bs => rfl
  · rcases hk with rfl | rfl <;>
      exact ⟨"unable to unmarshal integer value", by simp [unmarshalTableValue, hi]⟩
  · rcases hk with rfl | ⟨w, rfl⟩ | ⟨w, rfl⟩ | rfl <;>
      exact ⟨"unable to unmarshal byts value", by simp [unmarshalTableValue, hb]⟩

/-- Witness instantiating C5 on concrete values: a negative int64 round
trips, an integer payload cannot be unmarshalled into a string field, and a
byte payload cannot be unmarshalled into a bool field. -/
theorem marshalTableValue_roundtrip_mismatch_witness :
    unmarshalTableValue (some (marshalTableValue (.sint .w64 (-5)))) (.sint .w64) =
      .ok (.sint .w64 (-5)) ∧
    (∃ e, unmarshalTableValue (some { Integer := some 7 }) .str = .error e) ∧
    (∃ e, unmarshalTableValue (some { Bytes := some [1] }) .bool = .error e) := by
  refine ⟨?_, ?_, ?_⟩
  · exact marshalTableValue_roundtrip_mismatch.1 (.sint .w64 (-5)) (by decide)
  · exact marshalTableValue_roundtrip_mismatch.2.1 { Integer := some 7 } .str
      (by decide) (Or.inl rfl)
  · exact marshalTableValue_roundtrip_mismatch.2.2 { Bytes := some [1] } .bool
      (by decide) (Or.inl rfl)

/-- C10: unmarshalling a nil value, or a value with neither payload set,
succeeds and stores the zero value of the destination kind. -/
theorem unmarshalTableValue_zero_value :
    ∀ k : TKind, unmarshalTableValue none k = .ok k.zero ∧
      unmarshalTableValue (some {}) k = .ok k.zero := by
  intro k
  refine ⟨rfl, ?_⟩
  cases k with
  | sint w => cases w <;> decide
  | uint w => cases w <;> decide
  | bool => rfl
  | float => decide
  | str => rfl
  | byts => rfl

/-- A record instance: its fields as (column name, current value) pairs in
field order.  The source reads and writes struct fields through reflect;
here a record is its field table, with names as UTF-8 bytes. -/
abbrev Record := List (Bytes × TValue)

open Structured (assocFind)

/-- Setting a record field (reflect Set on the located field). -/
def Record.set (r : Record) (col : Bytes) (v : TValue) : Record :=
  r.map (fun p => if p.1 = col then (col, v) else p)

/-- model from table.go: the bound table name (as UTF-8 bytes), the bound
fields with their kinds, the primary key columns in declared order, and the
remaining columns. -/
structure Model where
  name : Bytes
  fields : List (Bytes × TKind)
  primaryKey : List Bytes
  otherColumns : List Bytes
deriving DecidableEq

/-- encodeTableKey from table.go: strings and byte slices through the bytes
codec, bool as varint 0 or 1, signed integers as varint, unsigned as
uvarint, floats through the numeric-float codec.  Every TValue kind is in
the source's supported set, so the source's error branch is unreachable
here. -/
def encodeTableKey (b : Bytes) (v : TValue) : Bytes :=
  match v with
  | .byts bs => RoachEncoding.EncodeBytes b bs
  | .str s => RoachEncoding.EncodeBytes b s
  | .bool bv => RoachEncoding.EncodeVarint b (if bv then 1 else 0)
  | .sint _ i => RoachEncoding.EncodeVarint b i
  | .uint _ n => RoachEncoding.EncodeUvarint b n
  | .float bits => RoachEncoding.EncodeNumericFloat b bits

/-- decodeTableKey from table.go: the inverse dispatch; the reflect setters
truncate to the field width. -/
def decodeTableKey (b : Bytes) (k : TKind) : Except String (Bytes × TValue) :=
  match k with
  | .byts =>
    match RoachEncoding.DecodeBytes b with
    | .error e => .error e
    | .ok (b, r) => .ok (b, .byts r)
  | .str =>
    match RoachEncoding.DecodeBytes b with
    | .error e => .error e
    | .ok (b, r) => .ok (b, .str r)
  | .bool =>
    match RoachEncoding.DecodeVarint b with
    | .error e => .error e
    | .ok (b, i) => .ok (b, .bool (i != 0))
  | .sint w =>
    match RoachEncoding.DecodeVarint b with
    | .error e => .error e
    | .ok (b, i) => .ok (b, .sint w (truncInt w i))
  | .uint w =>
    match RoachEncoding.DecodeUvarint b with
    | .error e => .error e
    | .ok (b, n) => .ok (b, .uint w (truncUint w n))
  | .float =>
    match RoachEncoding.DecodeNumericFloat b with
    | .error e => .error e
    | .ok (b, bits) => .ok (b, .float bits)

/-- The primary-key loop of encodePrimaryKey: looks each primary key column
up among the bound fields and appends its encoded record value.  The
record-read failure cannot occur in Go, where the record is a struct of the
bound type; it is an error here so the embedding stays total. -/
def encodePKLoop (m : Model) (r : Record) : Bytes → List Bytes → Except String Bytes
  | key, [] => .ok key
  | key, col :: rest =>
    match assocFind m.fields col with
    | none => .error "unable to find field"
    | some _ =>
      match assocFind r col with
      | none => .error "unable to read field"
      | some v => encodePKLoop m r (encodeTableKey key v) rest

/-- encodePrimaryKey from table.go: the encoded table name followed by the
encoded primary-key column values in declared order. -/
def Model.encodePrimaryKey (m : Model) (r : Record) : Except String Bytes :=
  encodePKLoop m r (RoachEncoding.EncodeBytes [] m.name) m.primaryKey

/-- The primary-key loop of decodePrimaryKey: decodes each column value and
stores it into the record. -/
def decodePKLoop (m : Model) : Bytes → Record → List Bytes → Except String (Bytes × Record)
  | key, r, [] => .ok (key, r)
  | key, r, col :: rest =>
    match assocFind m.fields col with
    | none => .error "unable to find field"
    | some kind =>
      match decodeTableKey key kind with
      | .error e => .error e
      | .ok (key, v) => decodePKLoop m key (r.set col v) rest

/-- decodePrimaryKey from table.go: checks the encoded table name, decodes
the primary-key columns into the record, and returns the remaining bytes. -/
def Model.decodePrimaryKey (m : Model) (key : Bytes) (r : Record) :
    Except String (Bytes × Record) :=
  match RoachEncoding.DecodeBytes key with
  | .error e => .error e
  | .ok (key, name) =>
    if name = m.name then decodePKLoop m key r m.primaryKey
    else .error "unexpected table name"

/-- encodeColumnKey from table.go: a fresh copy of the row prefix followed by
the raw column-name bytes. -/
def Model.encodeColumnKey (_ : Model) (primaryKey : Bytes) (column : Bytes) : Bytes :=
  primaryKey ++ column

/-- The model registry DB.experimentalModels, keyed by the record type. -/
abbrev ModelRegistry := List (String × Model)

/-- DB.BindModel from table.go: fails when the type is already bound,
otherwise registers the model, computing otherColumns as the bound fields
not named in the primary key.  The source performs no check that the primary
key columns exist among the bound fields (left as a TODO there). -/
def BindModel (models : ModelRegistry) (typeName : String) (name : Bytes)
    (fields : List (Bytes × TKind)) (primaryKey : List Bytes) :
    Except String ModelRegistry :=
  if (assocFind models typeName).isSome then
    .error (typeName ++ ": model already defined")
  else
    .ok (models ++ [(typeName,
      { name := name, fields := fields, primaryKey := primaryKey,
        otherColumns := (fields.map Prod.fst).filter (fun c => !(primaryKey.contains c)) })])

/-- DB.getModel from table.go: the registry lookup (the pointer-kind
assertion is a reflection-level check outside this embedding). -/
def getModel (models : ModelRegistry) (typeName : String) : Except String Model :=
  match assocFind models typeName with
  | some m => .ok m
  | none => .error ("unable to find model for '" ++ typeName ++ "'")

/-- A pending KV call of a batch, as enqueued by the row operations. -/
inductive CallEntry where
  | get (key : Bytes)
  | put (key : Bytes) (value : PValue)
  | inc (key : Bytes) (delta : Int)
  | del (key : Bytes)
  | scan (startKey endKey : Bytes) (maxRows : Int)
deriving DecidableEq

/-- The key of a pending call (the start key, for a scan). -/
def CallEntry.key : CallEntry → Bytes
  | .get k => k
  | .put k _ => k
  | .inc k _ => k
  | .del k => k
  | .scan k _ _ => k

/-- Modelled from the spec: a batch is the ordered pending KV calls plus the
per-operation results; batch.go is not under src/.  Section 4.6: a setup
error is recorded as the batch entry's result and does not abort previously
enqueued entries. -/
structure Batch where
  db : ModelRegistry
  calls : List CallEntry := []
  results : List (Option String) := []
deriving DecidableEq

/-- Modelled from the spec: initResult records an operation's outcome as that
operation's result, leaving the pending calls untouched. -/
def Batch.initResult (b : Batch) (err : Option String) : Batch :=
  { b with results := b.results ++ [err] }

/-- The column loop of Batch.GetStruct: one (cell key, column) pair per
requested column; an unknown column aborts the whole operation. -/
def getLoop (m : Model) (primaryKey : Bytes) : List Bytes → Except String (List (Bytes × Bytes))
  | [] => .ok []
  | col :: rest =>
    match assocFind m.fields col with
    | none => .error "unable to find field"
    | some _ =>
      match getLoop m primaryKey rest with
      | .error e => .error e
      | .ok gets => .ok ((m.encodeColumnKey primaryKey col, col) :: gets)

/-- The setup phase of Batch.GetStruct: row prefix from the record's primary
key, then one Get per requested column (all non-primary-key columns when the
list is empty). -/
def getStructGets (m : Model) (r : Record) (columns : List Bytes) :
    Except String (List (Bytes × Bytes)) :=
  match m.encodePrimaryKey r with
  | .error e => .error e
  | .ok pk =>
    let columns := if columns.isEmpty then m.otherColumns else columns
    getLoop m pk columns

/-- Batch.GetStruct from table.go: a setup error becomes the operation's
result and enqueues nothing; otherwise the Get calls are appended. -/
def Batch.GetStruct (b : Batch) (typeName : String) (r : Record) (columns : List Bytes) :
    Batch :=
  match getModel b.db typeName with
  | .error e => b.initResult (some e)
  | .ok m =>
    match getStructGets m r columns with
    | .error e => b.initResult (some e)
    | .ok gets =>
      { b with
          calls := b.calls ++ gets.map (fun g => .get g.1),
          results := b.results ++ [none] }

/-- The column loop of Batch.PutStruct: one Put per requested column carrying
the marshalled record value at the cell key. -/
def putLoop (m : Model) (r : Record) (primaryKey : Bytes) :
    List Bytes → Except String (List CallEntry)
  | [] => .ok []
  | col :: rest =>
    match assocFind m.fields col with
    | none => .error "unable to find field"
    | some _ =>
      match assocFind r col with
      | none => .error "unable to read field"
      | some v =>
        match putLoop m r primaryKey rest with
        | .error e => .error e
        | .ok calls =>
          .ok (.put (m.encodeColumnKey primaryKey col) (marshalTableValue v) :: calls)

/-- The setup phase of Batch.PutStruct. -/
def putStructCalls (m : Model) (r : Record) (columns : List Bytes) :
    Except String (List CallEntry) :=
  match m.encodePrimaryKey r with
  | .error e => .error e
  | .ok pk =>
    let columns := if columns.isEmpty then m.otherColumns else columns
    putLoop m r pk columns

/-- Batch.PutStruct from table.go. -/
def Batch.PutStruct (b : Batch) (typeName : String) (r : Record) (columns : List Bytes) :
    Batch :=
  match getModel b.db typeName with
  | .error e => b.initResult (some e)
  | .ok m =>
    match putStructCalls m r columns with
    | .error e => b.initResult (some e)
    | .ok calls => { b with calls := b.calls ++ calls, results := b.results ++ [none] }

/-- The setup phase of Batch.IncStruct: a single Increment call on the named
column's cell key. -/
def incStructCall (m : Model) (r : Record) (value : Int) (column : Bytes) :
    Except String CallEntry :=
  match m.encodePrimaryKey r with
  | .error e => .error e
  | .ok pk =>
    match assocFind m.fields column with
    | none => .error "unable to find field"
    | some _ => .ok (.inc (m.encodeColumnKey pk column) value)

/-- Batch.IncStruct from table.go. -/
def Batch.IncStruct (b : Batch) (typeName : String) (r : Record) (value : Int)
    (column : Bytes) : Batch :=
  match getModel b.db typeName with
  | .error e => b.initResult (some e)
  | .ok m =>
    match incStructCall m r value column with
    | .error e => b.initResult (some e)
    | .ok c => { b with calls := b.calls ++ [c], results := b.results ++ [none] }

/-- The column loop of Batch.DelStruct: one Delete per requested column. -/
def delLoop (m : Model) (primaryKey : Bytes) : List Bytes → Except String (List CallEntry)
  | [] => .ok []
  | col :: rest =>
    match assocFind m.fields col with
    | none => .error "unable to find field"
    | some _ =>
      match delLoop m primaryKey rest with
      | .error e => .error e
      | .ok calls => .ok (.del (m.encodeColumnKey primaryKey col) :: calls)

/-- The setup phase of Batch.DelStruct (empty column list deletes every
non-primary-key column of the row). -/
def delStructCalls (m : Model) (r : Record) (columns : List Bytes) :
    Except String (List CallEntry) :=
  match m.encodePrimaryKey r with
  | .error e => .error e
  | .ok pk =>
    let columns := if columns.isEmpty then m.otherColumns else columns
    delLoop m pk columns

/-- Batch.DelStruct from table.go. -/
def Batch.DelStruct (b : Batch) (typeName : String) (r : Record) (columns : List Bytes) :
    Batch :=
  match getModel b.db typeName with
  | .error e => b.initResult (some e)
  | .ok m =>
    match delStructCalls m r columns with
    | .error e => b.initResult (some e)
    | .ok calls => { b with calls := b.calls ++ calls, results := b.results ++ [none] }

/-- Modelled from the spec: the KV store state after executing the Put calls
of a batch (section 6 collaborator contract). -/
def storeOfCalls (calls : List CallEntry) : List (Bytes × PValue) :=
  calls.filterMap (fun c =>
    match c with
    | .put k v => some (k, v)
    | _ => none)

/-- Modelled from the spec: running the Get post-reply decoders of GetStruct
against a store; each decoder unmarshals the store's value at its key (nil
when the key is absent) into the record field named by its column. -/
def applyGetReplies (m : Model) (store : List (Bytes × PValue)) :
    Record → List (Bytes × Bytes) → Except String Record
  | r, [] => .ok r
  | r, (key, col) :: rest =>
    match assocFind m.fields col with
    | none => .error "unable to find field"
    | some kind =>
      match unmarshalTableValue (assocFind store key) kind with
      | .error e => .error e
      | .ok v => applyGetReplies m store (r.set col v) rest

/-- The UTF-8 bytes of an ASCII string (all names in the scenarios are
ASCII). -/
def strb (s : String) : Bytes := s.data.map Char.toNat

/-- The fields of the scenario record type User = (id, name, title), all
strings, in declaration order. -/
def userFields : List (Bytes × TKind) :=
  [(strb "id", .str), (strb "name", .str), (strb "title", .str)]

/-- The model BindModel builds for User bound to table users with primary
key id. -/
def userModel : Model :=
  { name := strb "users", fields := userFields,
    primaryKey := [strb "id"],
    otherColumns := [strb "name", strb "title"] }

/-- The record User with id 42, name ada, title admin. -/
def userAda : Record :=
  [(strb "id", .str (strb "42")), (strb "name", .str (strb "ada")),
   (strb "title", .str (strb "admin"))]

/-- The record User holding only id 42, other fields zero. -/
def userId42 : Record :=
  [(strb "id", .str (strb "42")), (strb "name", .str []), (strb "title", .str [])]

/-- A batch bound to the User model with no pending calls. -/
def userBatch : Batch := { db := [("User", userModel)] }

/-- C3 counterexample: PutStruct of the full User record with an empty
column list enqueues two Put calls, not three; the primary-key column is
stored only inside the keys, and otherColumns excludes it. -/
theorem putStruct_user_not_three_calls :
    (userBatch.PutStruct "User" userAda []).calls.length ≠ 3 ∧
    (userBatch.PutStruct "User" userAda []).calls.length = 2 := by
  decide

/-- C3 (amended): after binding User to users with primary key id, PutStruct
of User(42, ada, admin) with an empty column list enqueues two KV Put calls,
one per non-primary-key column; executing them and then running GetStruct on
a record holding only id 42 populates that record so it equals the
original. -/
theorem putStruct_getStruct_user_cycle :
    BindModel [] "User" (strb "users") userFields [strb "id"] = .ok [("User", userModel)] ∧
    (userBatch.PutStruct "User" userAda []).calls.length = 2 ∧
    (userBatch.PutStruct "User" userAda []).calls =
      (putStructCalls userModel userAda []).toOption.getD [] ∧
    (do
      let calls ← putStructCalls userModel userAda []
      let gets ← getStructGets userModel userId42 []
      applyGetReplies userModel (storeOfCalls calls) userId42 gets) = .ok userAda := by
  decide

/-- C8 counterexample: BindModel succeeds even though the primary-key column
nosuch is not among the bound fields; no bind-time check exists. -/
theorem bindModel_unknown_pk_counterexample :
    ∃ reg, BindModel [] "T" (strb "users") [(strb "id", TKind.str)] [strb "nosuch"] =
      .ok reg :=
  ⟨_, rfl⟩

/-- As long as some primary-key column is not among the bound fields, the
primary-key encoding loop fails for every record. -/
theorem encodePKLoop_missing_field (m : Model) :
    ∀ (cols : List Bytes) (col : Bytes) (r : Record) (key : Bytes),
      col ∈ cols → assocFind m.fields col = none →
      ∃ e, encodePKLoop m r key cols = .error e := by
  intro cols
  induction cols with
  | nil => simp
  | cons c rest ih =>
    intro col r key hmem hcol
    rcases List.mem_cons.mp hmem with rfl | hmem'
    · rw [encodePKLoop, hcol]
      exact ⟨_, rfl⟩
    · rw [encodePKLoop]
      cases hf : assocFind m.fields c with
      | none => exact ⟨_, rfl⟩
      | some k =>
        cases hr : assocFind r c with
        | none => exact ⟨_, rfl⟩
        | some v => exact ih col r _ hmem' hcol

/-- C8 (amended): binding a primary key that references a non-existent
column is accepted by BindModel; the unknown column surfaces only at
operation time, when encodePrimaryKey fails to find the field. -/
theorem bindModel_unknown_pk_deferred :
    ∀ (models : ModelRegistry) (typeName : String) (name : Bytes)
      (fields : List (Bytes × TKind)) (primaryKey : List Bytes) (col : Bytes),
      assocFind models typeName = none →
      col ∈ primaryKey →
      assocFind fields col = none →
      ∃ m, BindModel models typeName name fields primaryKey =
          .ok (models ++ [(typeName, m)]) ∧
        m.primaryKey = primaryKey ∧
        ∀ r : Record, ∃ e, m.encodePrimaryKey r = .error e := by
  intro models typeName name fields primaryKey col hfree hmem hcol
  refine ⟨{ name := name,
            fields := fields,
            primaryKey := primaryKey,
            otherColumns := (fields.map Prod.fst).filter (fun c => !(primaryKey.contains c)) },
    ?_, rfl, fun r => ?_⟩
  · rw [BindModel, if_neg (by simp [hfree])]
  · exact encodePKLoop_missing_field _ primaryKey col r _ hmem hcol

/-- Witness instantiating the amended C8 statement: binding T with field id
and primary key nosuch succeeds, and encoding the primary key of a concrete
record then fails. -/
theorem bindModel_unknown_pk_deferred_witness :
    ∃ m, BindModel [] "T" (strb "users") [(strb "id", TKind.str)] [strb "nosuch"] =
        .ok ([] ++ [("T", m)]) ∧
      m.primaryKey = [strb "nosuch"] ∧
      ∀ r : Record, ∃ e, m.encodePrimaryKey r = .error e := by
  exact bindModel_unknown_pk_deferred [] "T" (strb "users") [(strb "id", TKind.str)]
    [strb "nosuch"] (strb "nosuch") rfl (by decide) (by decide)

/-- A put whose only requested column is unknown fails during setup. -/
theorem putStructCalls_unknown_column (m : Model) (r : Record) (col : Bytes)
    (h : assocFind m.fields col = none) :
    ∃ e, putStructCalls m r [col] = .error e := by
  rw [putStructCalls]
  cases hp : m.encodePrimaryKey r with
  | error e => exact ⟨e, rfl⟩
  | ok pk =>
    simp only [List.isEmpty_cons, Bool.false_eq_true, if_false]
    rw [putLoop, h]
    exact ⟨_, rfl⟩

/-- A get whose only requested column is unknown fails during setup. -/
theorem getStructGets_unknown_column (m : Model) (r : Record) (col : Bytes)
    (h : assocFind m.fields col = none) :
    ∃ e, getStructGets m r [col] = .error e := by
  rw [getStructGets]
  cases hp : m.encodePrimaryKey r with
  | error e => exact ⟨e, rfl⟩
  | ok pk =>
    simp only [List.isEmpty_cons, Bool.false_eq_true, if_false]
    rw [getLoop, h]
    exact ⟨_, rfl⟩

/-- A delete whose only requested column is unknown fails during setup. -/
theorem delStructCalls_unknown_column (m : Model) (r : Record) (col : Bytes)
    (h : assocFind m.fields col = none) :
    ∃ e, delStructCalls m r [col] = .error e := by
  rw [delStructCalls]
  cases hp : m.encodePrimaryKey r with
  | error e => exact ⟨e, rfl⟩
  | ok pk =>
    simp only [List.isEmpty_cons, Bool.false_eq_true, if_false]
    rw [delLoop, h]
    exact ⟨_, rfl⟩

/-- An increment on an unknown column fails during setup. -/
theorem incStructCall_unknown_column (m : Model) (r : Record) (value : Int) (col : Bytes)
    (h : assocFind m.fields col = none) :
    ∃ e, incStructCall m r value col = .error e := by
  rw [incStructCall]
  cases hp : m.encodePrimaryKey r with
  | error e => exact ⟨e, rfl⟩
  | ok pk =>
    rw [h]
    exact ⟨_, rfl⟩

/-- C9: a row operation whose setup fails, because the named column is not
on the bound model or because the record type is not bound, records the
error as that operation's result, enqueues no KV call of its own, and leaves
the calls enqueued by earlier operations on the batch unchanged. -/
theorem batch_setup_error_isolated :
    (∀ (b : Batch) (tn : String) (r : Record) (m : Model) (col : Bytes),
      getModel b.db tn = .ok m → assocFind m.fields col = none →
      (b.PutStruct tn r [col]).calls = b.calls ∧
      ∃ e, (b.PutStruct tn r [col]).results = b.results ++ [some e]) ∧
    (∀ (b : Batch) (tn : String) (r : Record) (m : Model) (col : Bytes),
      getModel b.db tn = .ok m → assocFind m.fields col = none →
      (b.GetStruct tn r [col]).calls = b.calls ∧
      ∃ e, (b.GetStruct tn r [col]).results = b.results ++ [some e]) ∧
    (∀ (b : Batch) (tn : String) (r : Record) (m : Model) (value : Int) (col : Bytes),
      getModel b.db tn = .ok m → assocFind m.fields col = none →
      (b.IncStruct tn r value col).calls = b.calls ∧
      ∃ e, (b.IncStruct tn r value col).results = b.results ++ [some e]) ∧
    (∀ (b : Batch) (tn : String) (r : Record) (m : Model) (col : Bytes),
      getModel b.db tn = .ok m → assocFind m.fields col = none →
      (b.DelStruct tn r [col]).calls = b.calls ∧
      ∃ e, (b.DelStruct tn r [col]).results = b.results ++ [some e]) ∧
    (∀ (b : Batch) (tn : String) (r : Record) (columns : List Bytes) (err : String),
      getModel b.db tn = .error err →
      (b.GetStruct tn r columns).calls = b.calls ∧
      (b.GetStruct tn r columns).results = b.results ++ [some err]) := by
  refine ⟨fun b tn r m col hm hc => ?_, fun b tn r m col hm hc => ?_,
    fun b tn r m value col hm hc => ?_, fun b tn r m col hm hc => ?_,
    fun b tn r columns err hm => ?_⟩
  · obtain ⟨e, he⟩ := putStructCalls_unknown_column m r col hc
    refine ⟨?_, e, ?_⟩ <;> simp [Batch.PutStruct, hm, he, Batch.initResult]
  · obtain ⟨e, he⟩ := getStructGets_unknown_column m r col hc
    refine ⟨?_, e, ?_⟩ <;> simp [Batch.GetStruct, hm, he, Batch.initResult]
  · obtain ⟨e, he⟩ := incStructCall_unknown_column m r value col hc
    refine ⟨?_, e, ?_⟩ <;> simp [Batch.IncStruct, hm, he, Batch.initResult]
  · obtain ⟨e, he⟩ := delStructCalls_unknown_column m r col hc
    refine ⟨?_, e, ?_⟩ <;> simp [Batch.DelStruct, hm, he, Batch.initResult]
  · refine ⟨?_, ?_⟩ <;> simp [Batch.GetStruct, hm, Batch.initResult]

/-- A batch with one already-enqueued call, for the C9 witness. -/
def witnessBatch : Batch :=
  { db := [("User", userModel)], calls := [.del (strb "users")], results := [none] }

/-- Witness instantiating C9: a put naming an unknown column on a batch with
one pending call leaves that call untouched and records an error result, as
does a get on an unbound type. -/
theorem batch_setup_error_isolated_witness :
    ((witnessBatch.PutStruct "User" userAda [strb "nosuch"]).calls =
        [CallEntry.del (strb "users")] ∧
      ∃ e, (witnessBatch.PutStruct "User" userAda [strb "nosuch"]).results =
        [none] ++ [some e]) ∧
    ((witnessBatch.GetStruct "Ghost" userAda []).calls = [CallEntry.del (strb "users")] ∧
      (witnessBatch.GetStruct "Ghost" userAda []).results =
        [none] ++ [some ("unable to find model for '" ++ "Ghost" ++ "'")]) := by
  constructor
  · exact batch_setup_error_isolated.1 witnessBatch "User" userAda userModel
      (strb "nosuch") rfl (by decide)
  · exact batch_setup_error_isolated.2.2.2.2 witnessBatch "Ghost" userAda []
      ("unable to find model for '" ++ "Ghost" ++ "'") rfl

/-- Every table-key encoder appends to its buffer. -/
theorem encodeTableKey_append (b : Bytes) (v : TValue) :
    encodeTableKey b v = b ++ encodeTableKey [] v := by
  cases v <;> simp [encodeTableKey, RoachEncoding.EncodeBytes, RoachEncoding.EncodeVarint,
    RoachEncoding.EncodeUvarint, RoachEncoding.EncodeNumericFloat]

/-- The row prefix of section 4.5: the order-preserving encoding of the
table name followed by the encodings of the primary-key values in declared
order. -/
def rowPrefixBytes (name : Bytes) (pks : List TValue) : Bytes :=
  RoachEncoding.EncodeBytes [] name ++ (pks.map (encodeTableKey [])).flatten

/-- When every primary-key column is bound and the record carries the listed
values, the encoding loop produces exactly the concatenation of the
per-value encodings. -/
theorem encodePKLoop_ok (m : Model) (r : Record) :
    ∀ (cols : List Bytes) (pks : List TValue) (key : Bytes),
      List.Forall₂ (fun col v => (assocFind m.fields col).isSome ∧ assocFind r col = some v)
        cols pks →
      encodePKLoop m r key cols = .ok (key ++ (pks.map (encodeTableKey [])).flatten) := by
  intro cols pks key h
  induction h generalizing key with
  | nil => simp [encodePKLoop]
  | cons hp hrest ih =>
    obtain ⟨hf, hr⟩ := hp
    obtain ⟨k, hk⟩ := Option.isSome_iff_exists.mp hf
    simp only [encodePKLoop, hk, hr]
    rw [ih, encodeTableKey_append]
    simp [List.append_assoc]

/-- The Get loop pairs each requested column with the row prefix plus its
name. -/
theorem getLoop_keys (m : Model) (pk : Bytes) :
    ∀ (cols : List Bytes) (gets : List (Bytes × Bytes)),
      getLoop m pk cols = .ok gets →
      gets = cols.map (fun col => (pk ++ col, col)) := by
  intro cols
  induction cols with
  | nil =>
    intro gets h
    simpa [getLoop] using h.symm
  | cons c rest ih =>
    intro gets h
    rw [getLoop] at h
    cases hf : assocFind m.fields c with
    | none => rw [hf] at h; exact absurd h (by simp)
    | some k =>
      rw [hf] at h
      cases hr : getLoop m pk rest with
      | error e => rw [hr] at h; exact absurd h (by simp)
      | ok gets' =>
        rw [hr] at h
        obtain rfl : (m.encodeColumnKey pk c, c) :: gets' = gets := by simpa using h
        rw [List.map_cons, ih gets' hr]
        rfl

/-- The Put loop keys each requested column at the row prefix plus its
name. -/
theorem putLoop_keys (m : Model) (r : Record) (pk : Bytes) :
    ∀ (cols : List Bytes) (calls : List CallEntry),
      putLoop m r pk cols = .ok calls →
      calls.map CallEntry.key = cols.map (fun col => pk ++ col) := by
  intro cols
  induction cols with
  | nil =>
    intro calls h
    obtain rfl : calls = [] := by simpa [putLoop] using h.symm
    rfl
  | cons c rest ih =>
    intro calls h
    rw [putLoop] at h
    cases hf : assocFind m.fields c with
    | none => rw [hf] at h; exact absurd h (by simp)
    | some k =>
      rw [hf] at h
      cases hr : assocFind r c with
      | none => rw [hr] at h; exact absurd h (by simp)
      | some v =>
        rw [hr] at h
        cases hc : putLoop m r pk rest with
        | error e => rw [hc] at h; exact absurd h (by simp)
        | ok calls' =>
          rw [hc] at h
          obtain rfl : CallEntry.put (m.encodeColumnKey pk c) (marshalTableValue v) :: calls'
              = calls := by simpa using h
          rw [List.map_cons, List.map_cons, ih calls' hc]
          rfl

/-- The Delete loop keys each requested column at the row prefix plus its
name. -/
theorem delLoop_keys (m : Model) (pk : Bytes) :
    ∀ (cols : List Bytes) (calls : List CallEntry),
      delLoop m pk cols = .ok calls →
      calls.map CallEntry.key = cols.map (fun col => pk ++ col) := by
  intro cols
  induction cols with
  | nil =>
    intro calls h
    obtain rfl : calls = [] := by simpa [delLoop] using h.symm
    rfl
  | cons c rest ih =>
    intro calls h
    rw [delLoop] at h
    cases hf : assocFind m.fields c with
    | none => rw [hf] at h; exact absurd h (by simp)
    | some k =>
      rw [hf] at h
      cases hc : delLoop m pk rest with
      | error e => rw [hc] at h; exact absurd h (by simp)
      | ok calls' =>
        rw [hc] at h
        obtain rfl : CallEntry.del (m.encodeColumnKey pk c) :: calls' = calls := by
          simpa using h
        rw [List.map_cons, List.map_cons, ih calls' hc]
        rfl

/-- C4: for a bound model and a record carrying the primary-key values, every
key enqueued by the row operations is the concatenation of the
order-preserving bytes-encoding of the table name, the order-preserving
encodings of the record's primary-key values in declared order, and the raw
bytes of the column name. -/
theorem rowOp_keys_structure :
    ∀ (m : Model) (r : Record) (pks : List TValue),
      List.Forall₂ (fun col v => (assocFind m.fields col).isSome ∧ assocFind r col = some v)
        m.primaryKey pks →
      m.encodePrimaryKey r = .ok (rowPrefixBytes m.name pks) ∧
      (∀ columns gets, getStructGets m r columns = .ok gets →
        gets.map Prod.fst = (if columns.isEmpty then m.otherColumns else columns).map
          (fun col => rowPrefixBytes m.name pks ++ col)) ∧
      (∀ columns calls, putStructCalls m r columns = .ok calls →
        calls.map CallEntry.key = (if columns.isEmpty then m.otherColumns else columns).map
          (fun col => rowPrefixBytes m.name pks ++ col)) ∧
      (∀ (value : Int) (column : Bytes) (c : CallEntry),
        incStructCall m r value column = .ok c →
        c.key = rowPrefixBytes m.name pks ++ column) ∧
      (∀ columns calls, delStructCalls m r columns = .ok calls →
        calls.map CallEntry.key = (if columns.isEmpty then m.otherColumns else columns).map
          (fun col => rowPrefixBytes m.name pks ++ col)) := by
  intro m r pks hpk
  have hpref : m.encodePrimaryKey r = .ok (rowPrefixBytes m.name pks) :=
    encodePKLoop_ok m r m.primaryKey pks _ hpk
  refine ⟨hpref, fun columns gets h => ?_, fun columns calls h => ?_,
    fun value column c h => ?_, fun columns calls h => ?_⟩
  · rw [getStructGets, hpref] at h
    have := getLoop_keys m (rowPrefixBytes m.name pks) _ gets h
    rw [this, List.map_map]
    rfl
  · rw [putStructCalls, hpref] at h
    exact putLoop_keys m r (rowPrefixBytes m.name pks) _ calls h
  · rw [incStructCall, hpref] at h
    cases hf : assocFind m.fields column with
    | none => rw [hf] at h; exact absurd h (by simp)
    | some k =>
      rw [hf] at h
      obtain rfl : CallEntry.inc (m.encodeColumnKey (rowPrefixBytes m.name pks) column) value
          = c := by simpa using h
      rfl
  · rw [delStructCalls, hpref] at h
    exact delLoop_keys m (rowPrefixBytes m.name pks) _ calls h

/-- Witness instantiating C4 on the User model and record: the row prefix
and the two put keys have the claimed concatenation shape. -/
theorem rowOp_keys_structure_witness :
    userModel.encodePrimaryKey userAda =
      .ok (rowPrefixBytes (strb "users") [.str (strb "42")]) ∧
    ((putStructCalls userModel userAda []).toOption.getD []).map CallEntry.key =
      [rowPrefixBytes (strb "users") [.str (strb "42")] ++ strb "name",
       rowPrefixBytes (strb "users") [.str (strb "42")] ++ strb "title"] := by
  have h := rowOp_keys_structure userModel userAda [.str (strb "42")]
    (List.Forall₂.cons (by decide) List.Forall₂.nil)
  refine ⟨h.1, ?_⟩
  have h2 := h.2.2.1 [] ((putStructCalls userModel userAda []).toOption.getD []) (by decide)
  rw [h2]
  rfl

/-- The fresh zero record reflect.New allocates for the bound model type. -/
def zeroRecord (m : Model) : Record := m.fields.map (fun p => (p.1, p.2.zero))

/-- Unfolding a record set on a cons cell. -/
theorem Record.set_cons (p : Bytes × TValue) (rest : Record) (col : Bytes) (v : TValue) :
    Record.set (p :: rest) col v =
      (if p.1 = col then (col, v) else p) :: Record.set rest col v := rfl

/-- Unfolding an association lookup on a cons cell. -/
theorem assocFind_cons {α β : Type} [DecidableEq α] (p : α × β) (rest : List (α × β))
    (k : α) : assocFind (p :: rest) k = if p.1 = k then some p.2 else assocFind rest k := rfl

/-- Setting a field keeps the record's field names. -/
theorem Record.set_keys (r : Record) (col : Bytes) (v : TValue) :
    (r.set col v).map Prod.fst = r.map Prod.fst := by
  induction r with
  | nil => rfl
  | cons p rest ih =>
    rw [Record.set_cons, List.map_cons, List.map_cons, ih]
    by_cases h : p.1 = col
    · rw [if_pos h, h]
    · rw [if_neg h]

/-- Looking up a just-set field returns the new value, when the field
exists. -/
theorem Record.lookup_set_self (r : Record) (col : Bytes) (v : TValue)
    (h : col ∈ r.map Prod.fst) : assocFind (r.set col v) col = some v := by
  induction r with
  | nil => simp at h
  | cons p rest ih =>
    rw [Record.set_cons]
    by_cases hp : p.1 = col
    · rw [if_pos hp, assocFind_cons, if_pos rfl]
    · rw [if_neg hp, assocFind_cons, if_neg hp]
      refine ih ?_
      have h' : col = p.1 ∨ col ∈ rest.map Prod.fst := by simpa using h
      rcases h' with h1 | h1
      · exact absurd h1.symm hp
      · exact h1

/-- Setting one field leaves the others unchanged. -/
theorem Record.lookup_set_ne (r : Record) (col c : Bytes) (v : TValue) (h : c ≠ col) :
    assocFind (r.set col v) c = assocFind r c := by
  induction r with
  | nil => rfl
  | cons p rest ih =>
    rw [Record.set_cons, assocFind_cons, assocFind_cons]
    by_cases hp : p.1 = col
    · have hne1 : ¬(col, v).1 = c := by
        simp only []
        intro he
        exact h (he.symm)
      have hne2 : ¬p.1 = c := by
        rw [hp]
        intro he
        exact h he.symm
      rw [if_pos hp, if_neg hne1, if_neg hne2, ih]
    · rw [if_neg hp]
      by_cases hc : p.1 = c
      · rw [if_pos hc, if_pos hc]
      · rw [if_neg hc, if_neg hc, ih]

/-- Setting a field that does not exist is a no-op. -/
theorem Record.set_not_mem (r : Record) (col : Bytes) (v : TValue)
    (h : col ∉ r.map Prod.fst) : r.set col v = r := by
  induction r with
  | nil => rfl
  | cons p rest ih =>
    have h1 : p.1 ≠ col := fun he => h (by simp [he])
    rw [Record.set_cons, if_neg h1, ih (fun hm => h (by simp [hm]))]

/-- Setting a field to its current value is the identity, on duplicate-free
records. -/
theorem Record.set_self (r : Record) (col : Bytes) (v : TValue)
    (hnd : (r.map Prod.fst).Nodup) (h : assocFind r col = some v) :
    r.set col v = r := by
  induction r with
  | nil => rfl
  | cons p rest ih =>
    rw [List.map_cons, List.nodup_cons] at hnd
    obtain ⟨hp1, hp2⟩ := hnd
    rw [assocFind_cons] at h
    rw [Record.set_cons]
    by_cases hp : p.1 = col
    · rw [if_pos hp] at h
      obtain hv : p.2 = v := by simpa using h
      rw [if_pos hp, Record.set_not_mem rest col v (hp ▸ hp1)]
      obtain ⟨q1, q2⟩ := p
      simp_all
    · rw [if_neg hp] at h
      rw [if_neg hp, ih hp2 h]

/-- Setting the same field twice keeps only the second value. -/
theorem Record.set_set_same (r : Record) (col : Bytes) (v1 v2 : TValue) :
    (r.set col v1).set col v2 = r.set col v2 := by
  simp only [Record.set, List.map_map]
  refine List.map_congr_left (fun p _ => ?_)
  by_cases h : p.1 = col <;> simp [Function.comp, h]

/-- Sets of distinct fields commute. -/
theorem Record.set_set_comm (r : Record) (c1 c2 : Bytes) (v1 v2 : TValue) (h : c1 ≠ c2) :
    (r.set c1 v1).set c2 v2 = (r.set c2 v2).set c1 v1 := by
  simp only [Record.set, List.map_map]
  refine List.map_congr_left (fun p _ => ?_)
  by_cases h1 : p.1 = c1 <;> by_cases h2 : p.1 = c2 <;>
    simp_all [Function.comp]

/-- Folding a list of field assignments over a record. -/
def setList (r : Record) (l : List (Bytes × TValue)) : Record :=
  l.foldl (fun r p => r.set p.1 p.2) r

/-- The primary-key fields of a record set to the given tuple, in declared
order (what decodePrimaryKey leaves behind on a record). -/
def setPKs (m : Model) (r : Record) (pks : List TValue) : Record :=
  setList r (m.primaryKey.zip pks)

/-- One step of an assignment fold. -/
theorem setList_cons (r : Record) (p : Bytes × TValue) (l : List (Bytes × TValue)) :
    setList r (p :: l) = setList (r.set p.1 p.2) l := rfl

/-- Assignment folds keep the record's field names. -/
theorem setList_keys (l : List (Bytes × TValue)) :
    ∀ r : Record, (setList r l).map Prod.fst = r.map Prod.fst := by
  induction l with
  | nil => intro r; rfl
  | cons p rest ih =>
    intro r
    rw [setList_cons, ih, Record.set_keys]

/-- Fields not assigned by the fold keep their values. -/
theorem setList_lookup_not_mem (l : List (Bytes × TValue)) :
    ∀ (r : Record) (c : Bytes), c ∉ l.map Prod.fst →
      assocFind (setList r l) c = assocFind r c := by
  induction l with
  | nil => intro r c _; rfl
  | cons p rest ih =>
    intro r c h
    rw [setList_cons, ih _ c (fun hm => h (by simp [hm])),
      Record.lookup_set_ne _ _ _ _ (fun he => h (by simp [he]))]

/-- A set commutes past an assignment fold that avoids its field. -/
theorem setList_set_comm (l : List (Bytes × TValue)) :
    ∀ (r : Record) (c : Bytes) (v : TValue), c ∉ l.map Prod.fst →
      (setList r l).set c v = setList (r.set c v) l := by
  induction l with
  | nil => intro r c v _; rfl
  | cons p rest ih =>
    intro r c v h
    rw [setList_cons, setList_cons,
      ih _ c v (fun hm => h (by simp [hm])),
      Record.set_set_comm _ _ _ _ _ (fun he => h (by simp [he.symm]))]

/-- Re-assigning the same duplicate-free columns overwrites the first
assignment completely. -/
theorem setList_absorb (cols : List Bytes) :
    ∀ (pks1 pks2 : List TValue) (r : Record), cols.Nodup →
      cols.length = pks1.length → cols.length = pks2.length →
      setList (setList r (cols.zip pks1)) (cols.zip pks2) = setList r (cols.zip pks2) := by
  induction cols with
  | nil => intro pks1 pks2 r _ _ _; rfl
  | cons c cs ih =>
    intro pks1 pks2 r hnd h1 h2
    obtain ⟨v1, vs1, rfl⟩ : ∃ v1 vs1, pks1 = v1 :: vs1 := by
      cases pks1 with
      | nil => simp at h1
      | cons a b => exact ⟨a, b, rfl⟩
    obtain ⟨v2, vs2, rfl⟩ : ∃ v2 vs2, pks2 = v2 :: vs2 := by
      cases pks2 with
      | nil => simp at h2
      | cons a b => exact ⟨a, b, rfl⟩
    obtain ⟨hc, hcs⟩ := List.nodup_cons.mp hnd
    have hl1 : cs.length = vs1.length := by simpa using h1
    have hl2 : cs.length = vs2.length := by simpa using h2
    have hm1 : c ∉ (cs.zip vs1).map Prod.fst := by
      rw [List.map_fst_zip cs vs1 (by omega)]
      exact hc
    rw [List.zip_cons_cons, List.zip_cons_cons, setList_cons, setList_cons, setList_cons]
    rw [setList_set_comm _ _ _ _ hm1, Record.set_set_same]
    exact ih vs1 vs2 (r.set c v2) hcs hl1 hl2

/-- Decoding an encoded table-key element of the matching kind consumes
exactly the encoding and restores the value, for machine-representable
values. -/
theorem decodeTableKey_roundtrip (v : TValue) (rest : Bytes) (h : v.wellFormed) :
    decodeTableKey (encodeTableKey [] v ++ rest) v.kind = .ok (rest, v) := by
  cases v with
  | byts bs =>
    have hd : RoachEncoding.DecodeBytes (RoachEncoding.EncodeBytes [] bs ++ rest)
        = .ok (rest, bs) := RoachEncoding.decodeBytes_encodeBytes bs rest
    simp only [TValue.kind, decodeTableKey, encodeTableKey, hd]
  | str str0 =>
    have hd : RoachEncoding.DecodeBytes (RoachEncoding.EncodeBytes [] str0 ++ rest)
        = .ok (rest, str0) := RoachEncoding.decodeBytes_encodeBytes str0 rest
    simp only [TValue.kind, decodeTableKey, encodeTableKey, hd]
  | bool b =>
    have hd : RoachEncoding.DecodeVarint
        (RoachEncoding.EncodeVarint [] (if b = true then 1 else 0) ++ rest)
        = .ok (rest, if b = true then 1 else 0) := by
      rw [RoachEncoding.EncodeVarint, List.nil_append]
      exact RoachEncoding.decodeVarint_varintBytes _ rest (by cases b <;> norm_num)
    simp only [TValue.kind, decodeTableKey, encodeTableKey, hd]
    cases b <;> rfl
  | sint w i =>
    obtain ⟨h1, h2⟩ := h
    have hbits : (2 : Int) ^ (w.bits - 1) ≤ 2 ^ 63 := by
      cases w <;> norm_num [IntWidth.bits]
    have hd : RoachEncoding.DecodeVarint (RoachEncoding.EncodeVarint [] i ++ rest)
        = .ok (rest, i) := by
      rw [RoachEncoding.EncodeVarint, List.nil_append]
      exact RoachEncoding.decodeVarint_varintBytes i rest (by omega)
    simp only [TValue.kind, decodeTableKey, encodeTableKey, hd]
    rw [truncInt_id w i h1 h2]
  | uint w n =>
    have hn : n < 2 ^ w.bits := h
    have hd : RoachEncoding.DecodeUvarint (RoachEncoding.EncodeUvarint [] n ++ rest)
        = .ok (rest, n) := by
      rw [RoachEncoding.EncodeUvarint, List.nil_append]
      exact RoachEncoding.decodeUvarint_uvarintBytes n rest
    simp only [TValue.kind, decodeTableKey, encodeTableKey, hd]
    rw [truncUint, Nat.mod_eq_of_lt hn]
  | float bits =>
    have h64 : bits < 2 ^ 64 := h
    have hd : RoachEncoding.DecodeNumericFloat
        (RoachEncoding.EncodeNumericFloat [] bits ++ rest) = .ok (rest, bits) := by
      rw [RoachEncoding.EncodeNumericFloat, List.nil_append]
      exact RoachEncoding.decodeNumericFloat_floatBytes bits rest h64
    simp only [TValue.kind, decodeTableKey, encodeTableKey, hd]

/-- A model fit for scanning: duplicate-free field names and a
duplicate-free primary key. -/
def Model.scanWF (m : Model) : Prop :=
  (m.fields.map Prod.fst).Nodup ∧ m.primaryKey.Nodup

/-- A primary-key tuple matching the model: one machine-representable value
of the bound field's kind per primary-key column, in order. -/
def pkMatches (m : Model) (pks : List TValue) : Prop :=
  List.Forall₂ (fun col v => assocFind m.fields col = some v.kind ∧ v.wellFormed)
    m.primaryKey pks

/-- The primary-key decoding loop undoes the encoding loop: decoding the
concatenated encodings of a matching tuple consumes them and sets the
columns, leaving the rest. -/
theorem decodePKLoop_roundtrip (m : Model) :
    ∀ (cols : List Bytes) (pks : List TValue) (r : Record) (rest : Bytes),
      List.Forall₂ (fun col v => assocFind m.fields col = some v.kind ∧ v.wellFormed)
        cols pks →
      decodePKLoop m ((pks.map (encodeTableKey [])).flatten ++ rest) r cols =
        .ok (rest, setList r (cols.zip pks)) := by
  intro cols pks r rest h
  induction h generalizing r with
  | nil => simp [decodePKLoop, setList]
  | @cons col v cols' pks' hp hrest ih =>
    obtain ⟨hf, hwf⟩ := hp
    have hd := decodeTableKey_roundtrip v ((pks'.map (encodeTableKey [])).flatten ++ rest) hwf
    simp only [List.map_cons, List.flatten_cons, List.append_assoc, decodePKLoop, hf, hd]
    rw [ih (r.set col v), List.zip_cons_cons, setList_cons]

/-- decodePrimaryKey undoes the row prefix: it consumes the encoded table
name and primary-key values, sets the primary-key fields, and returns the
rest of the key. -/
theorem decodePrimaryKey_roundtrip (m : Model) (pks : List TValue) (r : Record)
    (rest : Bytes) (h : pkMatches m pks) :
    m.decodePrimaryKey (rowPrefixBytes m.name pks ++ rest) r =
      .ok (rest, setPKs m r pks) := by
  have hd : RoachEncoding.DecodeBytes (RoachEncoding.EncodeBytes [] m.name ++
      ((pks.map (encodeTableKey [])).flatten ++ rest))
      = .ok ((pks.map (encodeTableKey [])).flatten ++ rest, m.name) :=
    RoachEncoding.decodeBytes_encodeBytes _ _
  simp only [Model.decodePrimaryKey, rowPrefixBytes, List.append_assoc, hd,
    eq_self_iff_true, if_true]
  exact decodePKLoop_roundtrip m m.primaryKey pks r rest h

/-- Two matching tuples with the same lookups are equal. -/
theorem forall₂_lookup_inj {α β : Type} (f : α → Option β) :
    ∀ (cols : List α) (v1 v2 : List β),
      List.Forall₂ (fun c v => f c = some v) cols v1 →
      List.Forall₂ (fun c v => f c = some v) cols v2 → v1 = v2 := by
  intro cols
  induction cols with
  | nil =>
    intro v1 v2 h1 h2
    cases h1
    cases h2
    rfl
  | cons c cs ih =>
    intro v1 v2 h1 h2
    cases h1 with
    | cons hp1 hr1 =>
      cases h2 with
      | cons hp2 hr2 =>
        obtain rfl : _ = _ := Option.some.inj (hp1.symm.trans hp2)
        rw [ih _ _ hr1 hr2]

/-- A successful lookup means the key is among the keys. -/
theorem assocFind_mem_keys {α β : Type} [DecidableEq α] (l : List (α × β)) (k : α) (v : β)
    (h : assocFind l k = some v) : k ∈ l.map Prod.fst :=
  List.mem_map_of_mem Prod.fst (Structured.assocFind_mem l k v h)

/-- The columns of a matching tuple are bound fields. -/
theorem pkMatches_cols_mem (m : Model) (cols : List Bytes) (pks : List TValue)
    (h : List.Forall₂ (fun col v => assocFind m.fields col = some v.kind ∧ v.wellFormed)
      cols pks) :
    ∀ col ∈ cols, col ∈ m.fields.map Prod.fst := by
  induction h with
  | nil => simp
  | @cons c v cs vs hp _ ih =>
    intro col hcol
    rcases List.mem_cons.mp hcol with rfl | hm
    · exact assocFind_mem_keys _ _ _ hp.1
    · exact ih col hm

/-- The requested-column filter of the ScanStruct post closure: a nil
scanCols map admits every column. -/
def colRequested (scanCols : Option (List Bytes)) (col : Bytes) : Bool :=
  match scanCols with
  | none => true
  | some cs => cs.contains col

/-- One iteration of the ScanStruct post-reply row loop from table.go, on
the state (accumulated records, previous row prefix, in-flight record):
flush the in-flight record when the key leaves the current row prefix
(re-decoding the old prefix into the fresh record, as the source does),
decode the primary key from the row key, remember the new row prefix, and
unmarshal the cell into its field when the column is requested. -/
def scanStep (m : Model) (scanCols : Option (List Bytes))
    (st : List Record × Option Bytes × Record) (row : Bytes × PValue) :
    Except String (List Record × Option Bytes × Record) :=
  let flush : Except String (List Record × Record) :=
    match st.2.1 with
    | none => .ok (st.1, st.2.2)
    | some pk =>
      if pk.isPrefixOf row.1 then .ok (st.1, st.2.2)
      else
        match m.decodePrimaryKey pk (zeroRecord m) with
        | .error e => .error e
        | .ok (_, r2) => .ok (st.1 ++ [st.2.2], r2)
  match flush with
  | .error e => .error e
  | .ok (acc, result) =>
    match m.decodePrimaryKey row.1 result with
    | .error e => .error e
    | .ok (col, result) =>
      let newPK := row.1.take (row.1.length - col.length)
      if colRequested scanCols col then
        match assocFind m.fields col with
        | none => .error "unable to find field"
        | some kind =>
          match unmarshalTableValue (some row.2) kind with
          | .error e => .error e
          | .ok v => .ok (acc, some newPK, result.set col v)
      else .ok (acc, some newPK, result)

/-- The Post closure of ScanStruct from table.go, run on the scan reply
rows (the batch plumbing that invokes it after the reply arrives is per
spec section 4.6): an empty reply leaves the destination alone; otherwise
the row loop folds over the rows and the in-flight record is appended
after the last one. -/
def scanStructPost (m : Model) (columns : List Bytes) (dest : List Record)
    (rows : List (Bytes × PValue)) : Except String (List Record) :=
  if rows.isEmpty then .ok dest
  else
    match rows.foldlM
        (scanStep m (if columns.isEmpty then none else some columns))
        (dest, none, zeroRecord m) with
    | .error e => .error e
    | .ok (acc, _, result) => .ok (acc ++ [result])

/-- The effect the specification ascribes to one cell: requested cells
are unmarshalled into the named field, others are skipped (an unknown
field or a failed unmarshal cannot occur for well-formed cells; they
leave the record unchanged here so the function stays total). -/
def cellApply (m : Model) (scanCols : Option (List Bytes)) (r : Record)
    (cell : Bytes × PValue) : Record :=
  if colRequested scanCols cell.1 then
    match assocFind m.fields cell.1 with
    | none => r
    | some kind =>
      match unmarshalTableValue (some cell.2) kind with
      | .error _ => r
      | .ok v => r.set cell.1 v
  else r

/-- The record the specification expects for one row group: the zero
record with the primary-key fields decoded from the row prefix and each
requested stored cell unmarshalled into its field; non-requested
non-primary-key fields stay at their zero values. -/
def specGroupRecord (m : Model) (scanCols : Option (List Bytes))
    (g : List TValue × List (Bytes × PValue)) : Record :=
  g.2.foldl (cellApply m scanCols) (setPKs m (zeroRecord m) g.1)

/-- The reply rows of one table row: each stored cell keyed by the row
prefix followed by its column name. -/
def groupRows (m : Model) (g : List TValue × List (Bytes × PValue)) :
    List (Bytes × PValue) :=
  g.2.map (fun cell => (rowPrefixBytes m.name g.1 ++ cell.1, cell.2))

/-- A well-formed stored cell for a model: the column is a bound field
that is not part of the primary key, and the payload unmarshals at the
field kind. -/
def cellWF (m : Model) (cell : Bytes × PValue) : Bool :=
  match assocFind m.fields cell.1 with
  | none => false
  | some kind =>
    !(m.primaryKey.contains cell.1) &&
      (match unmarshalTableValue (some cell.2) kind with
       | .error _ => false
       | .ok _ => true)

/-- A well-formed reply group: a matching primary-key tuple and at least
one well-formed stored cell. -/
def groupWF (m : Model) (g : List TValue × List (Bytes × PValue)) : Prop :=
  pkMatches m g.1 ∧ g.2 ≠ [] ∧ ∀ cell ∈ g.2, cellWF m cell = true

/-- A list is a Boolean prefix of itself extended by anything. -/
theorem isPrefixOf_append_self {α : Type} [DecidableEq α] :
    ∀ (l t : List α), l.isPrefixOf (l ++ t) = true := by
  intro l t
  induction l with
  | nil => simp [List.isPrefixOf]
  | cons a as ih => simp [List.isPrefixOf, ih]

/-- Binding a successful Except value. -/
theorem except_bind_ok {ε α β : Type} (a : α) (f : α → Except ε β) :
    (Except.ok a >>= f) = f a := rfl

/-- Reattaching the last element after dropping it. -/
theorem dropLast_append_getLastD {α : Type} :
    ∀ (x : α) (xs : List α), (x :: xs).dropLast ++ [xs.getLastD x] = x :: xs := by
  intro x xs
  induction xs generalizing x with
  | nil => rfl
  | cons y ys ih =>
    rw [List.dropLast_cons₂, List.getLastD_cons, List.cons_append, ih y]

/-- Assigning distinct existing columns makes each later lookup return its
assigned value. -/
theorem setList_forall₂_lookup :
    ∀ (cols : List Bytes) (vals : List TValue) (r : Record), cols.Nodup →
      (∀ c ∈ cols, c ∈ r.map Prod.fst) → cols.length = vals.length →
      List.Forall₂ (fun c v => assocFind (setList r (cols.zip vals)) c = some v)
        cols vals := by
  intro cols
  induction cols with
  | nil =>
    intro vals r _ _ hlen
    obtain rfl : vals = [] := by cases vals <;> simp_all
    exact .nil
  | cons c cs ih =>
    intro vals r hnd hmem hlen
    obtain ⟨v, vs, rfl⟩ : ∃ v vs, vals = v :: vs := by
      cases vals with
      | nil => simp at hlen
      | cons a b => exact ⟨a, b, rfl⟩
    obtain ⟨hc, hcs⟩ := List.nodup_cons.mp hnd
    have hlen2 : cs.length = vs.length := by simpa using hlen
    rw [List.zip_cons_cons, setList_cons]
    refine .cons ?_ ?_
    · have hnm : c ∉ (cs.zip vs).map Prod.fst := by
        rw [List.map_fst_zip cs vs (by omega)]
        exact hc
      rw [setList_lookup_not_mem _ _ _ hnm,
        Record.lookup_set_self r c v (hmem c (by simp))]
    · refine ih vs (r.set c v) hcs ?_ hlen2
      intro x hx
      rw [Record.set_keys]
      exact hmem x (List.mem_cons_of_mem _ hx)

/-- After decodePrimaryKey fills a record holding all bound fields, each
primary-key column holds its tuple value. -/
theorem setPKs_lookup (m : Model) (r : Record) (pks : List TValue)
    (hnd : m.primaryKey.Nodup) (hkeys : r.map Prod.fst = m.fields.map Prod.fst)
    (h : pkMatches m pks) :
    List.Forall₂ (fun c v => assocFind (setPKs m r pks) c = some v)
      m.primaryKey pks := by
  refine setList_forall₂_lookup m.primaryKey pks r hnd ?_ (List.Forall₂.length_eq h)
  intro c hc
  rw [hkeys]
  exact pkMatches_cols_mem m m.primaryKey pks h c hc

/-- A non-primary-key set commutes past a primary-key fill. -/
theorem setPKs_set_comm (m : Model) (r : Record) (pks : List TValue) (c : Bytes)
    (v : TValue) (hc : c ∉ m.primaryKey) :
    setPKs m (r.set c v) pks = (setPKs m r pks).set c v := by
  rw [setPKs, setPKs, ← setList_set_comm]
  intro hm
  obtain ⟨p, hp, hpc⟩ := List.mem_map.mp hm
  exact hc (hpc ▸ (List.of_mem_zip hp).1)

/-- Filling the primary key twice is the same as once. -/
theorem setPKs_idem (m : Model) (r : Record) (pks : List TValue)
    (hnd : m.primaryKey.Nodup) (hlen : m.primaryKey.length = pks.length) :
    setPKs m (setPKs m r pks) pks = setPKs m r pks :=
  setList_absorb m.primaryKey pks pks r hnd hlen hlen

/-- Row prefixes of different matching primary-key tuples never open one
another's cell keys: decoding is deterministic, so a shared prefix would
force the tuples to coincide. -/
theorem rowPrefix_isPrefixOf_false (m : Model) (pks1 pks2 : List TValue)
    (cell : Bytes) (hwf : m.scanWF) (h1 : pkMatches m pks1) (h2 : pkMatches m pks2)
    (hne : pks1 ≠ pks2) :
    (rowPrefixBytes m.name pks1).isPrefixOf (rowPrefixBytes m.name pks2 ++ cell)
      = false := by
  obtain ⟨hfnd, hpnd⟩ := hwf
  rw [Bool.eq_false_iff]
  intro htrue
  obtain ⟨t, ht⟩ := List.isPrefixOf_iff_prefix.mp htrue
  have hd1 := decodePrimaryKey_roundtrip m pks1 (zeroRecord m) t h1
  have hd2 := decodePrimaryKey_roundtrip m pks2 (zeroRecord m) cell h2
  rw [ht] at hd1
  have heq : (t, setPKs m (zeroRecord m) pks1) = (cell, setPKs m (zeroRecord m) pks2) :=
    Except.ok.inj (hd1.symm.trans hd2)
  have hrec : setPKs m (zeroRecord m) pks1 = setPKs m (zeroRecord m) pks2 :=
    congrArg Prod.snd heq
  have hz : (zeroRecord m).map Prod.fst = m.fields.map Prod.fst := by
    simp [zeroRecord]
  have hl1 := setPKs_lookup m (zeroRecord m) pks1 hpnd hz h1
  have hl2 := setPKs_lookup m (zeroRecord m) pks2 hpnd hz h2
  rw [hrec] at hl1
  exact hne (forall₂_lookup_inj (assocFind (setPKs m (zeroRecord m) pks2))
    m.primaryKey pks1 pks2 hl1 hl2)

/-- Unpacking a well-formed cell. -/
theorem cellWF_elim (m : Model) (cell : Bytes × PValue) (h : cellWF m cell = true) :
    ∃ kind v, assocFind m.fields cell.1 = some kind ∧
      cell.1 ∉ m.primaryKey ∧
      unmarshalTableValue (some cell.2) kind = .ok v := by
  cases hf : assocFind m.fields cell.1 with
  | none => simp [cellWF, hf] at h
  | some kind =>
    cases hu : unmarshalTableValue (some cell.2) kind with
    | error e => simp [cellWF, hf, hu] at h
    | ok v =>
      simp only [cellWF, hf, hu, Bool.and_true, Bool.not_eq_eq_eq_not,
        Bool.not_true] at h
      exact ⟨kind, v, rfl, by simpa using h, hu⟩

/-- Applying a non-primary-key cell keeps the primary-key fields of a
record they already fill. -/
theorem cellApply_pk_fixed (m : Model) (scanCols : Option (List Bytes)) (r : Record)
    (pks : List TValue) (cell : Bytes × PValue) (hc : cell.1 ∉ m.primaryKey)
    (hfix : setPKs m r pks = r) :
    setPKs m (cellApply m scanCols r cell) pks = cellApply m scanCols r cell := by
  rw [cellApply]
  by_cases hreq : colRequested scanCols cell.1 = true
  · rw [if_pos hreq]
    cases hf : assocFind m.fields cell.1 with
    | none => exact hfix
    | some kind =>
      show setPKs m (match unmarshalTableValue (some cell.2) kind with
          | .error _ => r
          | .ok v => r.set cell.1 v) pks =
        match unmarshalTableValue (some cell.2) kind with
        | .error _ => r
        | .ok v => r.set cell.1 v
      cases hu : unmarshalTableValue (some cell.2) kind with
      | error e => exact hfix
      | ok v =>
        show setPKs m (r.set cell.1 v) pks = r.set cell.1 v
        rw [setPKs_set_comm m r pks cell.1 v hc, hfix]
  · rw [if_neg hreq]
    exact hfix

/-- A fold of well-formed cells keeps the primary-key fields filled. -/
theorem foldl_cellApply_pk_fixed (m : Model) (scanCols : Option (List Bytes))
    (pks : List TValue) :
    ∀ (cells : List (Bytes × PValue)) (r : Record),
      (∀ cell ∈ cells, cellWF m cell = true) → setPKs m r pks = r →
      setPKs m (cells.foldl (cellApply m scanCols) r) pks
        = cells.foldl (cellApply m scanCols) r := by
  intro cells
  induction cells with
  | nil => intro r _ h; exact h
  | cons cell cs ih =>
    intro r hcw hfix
    rw [List.foldl_cons]
    refine ih (cellApply m scanCols r cell) (fun c hc => hcw c (by simp [hc])) ?_
    obtain ⟨kind, v, hfnd, hnp, hum⟩ := cellWF_elim m cell (hcw cell (by simp))
    exact cellApply_pk_fixed m scanCols r pks cell hnp hfix

/-- One row of a group, seen from a state already at the group's prefix
with a record whose primary-key fields are filled: the cell is absorbed
and the prefix is kept. -/
theorem scanStep_cell (m : Model) (scanCols : Option (List Bytes)) (pks : List TValue)
    (acc : List Record) (r : Record) (cell : Bytes × PValue)
    (hpk : pkMatches m pks) (hfix : setPKs m r pks = r) (hcw : cellWF m cell = true) :
    scanStep m scanCols (acc, some (rowPrefixBytes m.name pks), r)
        (rowPrefixBytes m.name pks ++ cell.1, cell.2) =
      .ok (acc, some (rowPrefixBytes m.name pks), cellApply m scanCols r cell) := by
  obtain ⟨kind, v, hfnd, hnp, hum⟩ := cellWF_elim m cell hcw
  have hpf : (rowPrefixBytes m.name pks).isPrefixOf
      (rowPrefixBytes m.name pks ++ cell.1) = true := isPrefixOf_append_self _ _
  have hdec : m.decodePrimaryKey (rowPrefixBytes m.name pks ++ cell.1) r
      = .ok (cell.1, r) := by
    rw [decodePrimaryKey_roundtrip m pks r cell.1 hpk, hfix]
  have htake : (rowPrefixBytes m.name pks ++ cell.1).take
      ((rowPrefixBytes m.name pks ++ cell.1).length - cell.1.length)
      = rowPrefixBytes m.name pks := by
    have hlen : (rowPrefixBytes m.name pks ++ cell.1).length - cell.1.length
        = (rowPrefixBytes m.name pks).length := by
      rw [List.length_append]
      omega
    rw [hlen]
    exact RoachEncoding.take_append_len _ _ _ rfl
  by_cases hreq : colRequested scanCols cell.1 = true <;>
    simp [scanStep, hpf, hdec, htake, hreq, hfnd, hum, cellApply]

/-- The first row of a new group flushes the finished record, re-decodes
the old prefix into a fresh record and then decodes the new group's
primary key over it before absorbing the cell. -/
theorem scanStep_group_head (m : Model) (scanCols : Option (List Bytes))
    (pks gpks : List TValue) (acc : List Record) (r : Record) (cell : Bytes × PValue)
    (hwf : m.scanWF) (hpk : pkMatches m pks) (hgpk : pkMatches m gpks)
    (hne : pks ≠ gpks) (hcw : cellWF m cell = true) :
    scanStep m scanCols (acc, some (rowPrefixBytes m.name pks), r)
        (rowPrefixBytes m.name gpks ++ cell.1, cell.2) =
      .ok (acc ++ [r], some (rowPrefixBytes m.name gpks),
        cellApply m scanCols (setPKs m (zeroRecord m) gpks) cell) := by
  obtain ⟨kind, v, hfnd, hnp, hum⟩ := cellWF_elim m cell hcw
  have hpf : (rowPrefixBytes m.name pks).isPrefixOf
      (rowPrefixBytes m.name gpks ++ cell.1) = false :=
    rowPrefix_isPrefixOf_false m pks gpks cell.1 hwf hpk hgpk hne
  have hd0 : m.decodePrimaryKey (rowPrefixBytes m.name pks) (zeroRecord m)
      = .ok ([], setPKs m (zeroRecord m) pks) := by
    have h := decodePrimaryKey_roundtrip m pks (zeroRecord m) [] hpk
    rwa [List.append_nil] at h
  have habs : setPKs m (setPKs m (zeroRecord m) pks) gpks
      = setPKs m (zeroRecord m) gpks :=
    setList_absorb m.primaryKey pks gpks (zeroRecord m) hwf.2
      (List.Forall₂.length_eq hpk) (List.Forall₂.length_eq hgpk)
  have hdec : m.decodePrimaryKey (rowPrefixBytes m.name gpks ++ cell.1)
      (setPKs m (zeroRecord m) pks) = .ok (cell.1, setPKs m (zeroRecord m) gpks) := by
    rw [decodePrimaryKey_roundtrip m gpks (setPKs m (zeroRecord m) pks) cell.1 hgpk,
      habs]
  have htake : (rowPrefixBytes m.name gpks ++ cell.1).take
      ((rowPrefixBytes m.name gpks ++ cell.1).length - cell.1.length)
      = rowPrefixBytes m.name gpks := by
    have hlen : (rowPrefixBytes m.name gpks ++ cell.1).length - cell.1.length
        = (rowPrefixBytes m.name gpks).length := by
      rw [List.length_append]
      omega
    rw [hlen]
    exact RoachEncoding.take_append_len _ _ _ rfl
  by_cases hreq : colRequested scanCols cell.1 = true <;>
    simp [scanStep, hpf, hd0, hdec, htake, hreq, hfnd, hum, cellApply]

/-- The very first row of the reply: no prefix is pending, so nothing is
flushed; the primary key is decoded into the incoming record. -/
theorem scanStep_start (m : Model) (scanCols : Option (List Bytes))
    (gpks : List TValue) (acc : List Record) (r : Record) (cell : Bytes × PValue)
    (hgpk : pkMatches m gpks) (hcw : cellWF m cell = true) :
    scanStep m scanCols (acc, none, r)
        (rowPrefixBytes m.name gpks ++ cell.1, cell.2) =
      .ok (acc, some (rowPrefixBytes m.name gpks),
        cellApply m scanCols (setPKs m r gpks) cell) := by
  obtain ⟨kind, v, hfnd, hnp, hum⟩ := cellWF_elim m cell hcw
  have hdec := decodePrimaryKey_roundtrip m gpks r cell.1 hgpk
  have htake : (rowPrefixBytes m.name gpks ++ cell.1).take
      ((rowPrefixBytes m.name gpks ++ cell.1).length - cell.1.length)
      = rowPrefixBytes m.name gpks := by
    have hlen : (rowPrefixBytes m.name gpks ++ cell.1).length - cell.1.length
        = (rowPrefixBytes m.name gpks).length := by
      rw [List.length_append]
      omega
    rw [hlen]
    exact RoachEncoding.take_append_len _ _ _ rfl
  by_cases hreq : colRequested scanCols cell.1 = true <;>
    simp [scanStep, hdec, htake, hreq, hfnd, hum, cellApply]

/-- Folding the remaining rows of one group keeps the prefix and absorbs
each cell into the in-flight record. -/
theorem scanStep_cells (m : Model) (scanCols : Option (List Bytes))
    (pks : List TValue) (hpk : pkMatches m pks) :
    ∀ (cells : List (Bytes × PValue)) (acc : List Record) (r : Record),
      (∀ cell ∈ cells, cellWF m cell = true) → setPKs m r pks = r →
      (cells.map (fun cell => (rowPrefixBytes m.name pks ++ cell.1, cell.2))).foldlM
          (scanStep m scanCols) (acc, some (rowPrefixBytes m.name pks), r) =
        .ok (acc, some (rowPrefixBytes m.name pks),
          cells.foldl (cellApply m scanCols) r) := by
  intro cells
  induction cells with
  | nil => intro acc r _ _; rfl
  | cons cell cs ih =>
    intro acc r hcw hfix
    obtain ⟨kind, v, hfnd, hnp, hum⟩ := cellWF_elim m cell (hcw cell (by simp))
    rw [List.map_cons, List.foldlM_cons,
      scanStep_cell m scanCols pks acc r cell hpk hfix (hcw cell (by simp))]
    simp only [except_bind_ok]
    rw [List.foldl_cons]
    exact ih acc (cellApply m scanCols r cell)
      (fun c hc => hcw c (by simp [hc]))
      (cellApply_pk_fixed m scanCols r pks cell hnp hfix)

/-- Folding whole row groups from a state positioned at a previous row:
each group flushes the finished record, decodes its own primary key into
a fresh record and absorbs its cells; the last group's record stays in
flight. -/
theorem scanStep_groups (m : Model) (scanCols : Option (List Bytes)) (hwf : m.scanWF) :
    ∀ (gs : List (List TValue × List (Bytes × PValue))) (pks : List TValue)
      (acc : List Record) (r : Record),
      pkMatches m pks → setPKs m r pks = r →
      (∀ g ∈ gs, groupWF m g) →
      (∀ g0 ∈ gs.head?, pks ≠ g0.1) →
      List.Chain' (fun a b => a.1 ≠ b.1) gs →
      ((gs.map (groupRows m)).flatten).foldlM (scanStep m scanCols)
          (acc, some (rowPrefixBytes m.name pks), r) =
        .ok (acc ++ (r :: gs.map (specGroupRecord m scanCols)).dropLast,
          some (rowPrefixBytes m.name ((gs.map Prod.fst).getLastD pks)),
          (gs.map (specGroupRecord m scanCols)).getLastD r) := by
  intro gs
  induction gs with
  | nil =>
    intro pks acc r _ _ _ _ _
    simp [List.foldlM_nil]
    rfl
  | cons g gs ih =>
    intro pks acc r hpk hfix hg hhd hchain
    obtain ⟨hgpk, hne2, hcw⟩ := hg g (by simp)
    obtain ⟨cell, cs, hc2⟩ : ∃ cell cs, g.2 = cell :: cs := by
      cases hx : g.2 with
      | nil => exact absurd hx hne2
      | cons a b => exact ⟨a, b, rfl⟩
    have hne : pks ≠ g.1 := hhd g (by simp)
    obtain ⟨hhd2, hchain2⟩ := List.chain'_cons'.mp hchain
    have hcwc : cellWF m cell = true := hcw cell (by rw [hc2]; simp)
    obtain ⟨kind, v, hfnd, hnp, hum⟩ := cellWF_elim m cell hcwc
    have hfix1 : setPKs m (cellApply m scanCols (setPKs m (zeroRecord m) g.1) cell) g.1
        = cellApply m scanCols (setPKs m (zeroRecord m) g.1) cell :=
      cellApply_pk_fixed m scanCols (setPKs m (zeroRecord m) g.1) g.1 cell hnp
        (setPKs_idem m (zeroRecord m) g.1 hwf.2 (List.Forall₂.length_eq hgpk))
    have hfix2 : setPKs m (cs.foldl (cellApply m scanCols)
          (cellApply m scanCols (setPKs m (zeroRecord m) g.1) cell)) g.1
        = cs.foldl (cellApply m scanCols)
            (cellApply m scanCols (setPKs m (zeroRecord m) g.1) cell) :=
      foldl_cellApply_pk_fixed m scanCols g.1 cs
        (cellApply m scanCols (setPKs m (zeroRecord m) g.1) cell)
        (fun c hc => hcw c (by rw [hc2]; simp [hc])) hfix1
    have hspec : specGroupRecord m scanCols g
        = cs.foldl (cellApply m scanCols)
            (cellApply m scanCols (setPKs m (zeroRecord m) g.1) cell) := by
      rw [specGroupRecord, hc2, List.foldl_cons]
    simp only [List.map_cons, List.flatten_cons, List.foldlM_append, groupRows, hc2,
      List.foldlM_cons]
    rw [scanStep_group_head m scanCols pks g.1 acc r cell hwf hpk hgpk hne hcwc]
    simp only [except_bind_ok]
    rw [scanStep_cells m scanCols g.1 hgpk cs (acc ++ [r])
      (cellApply m scanCols (setPKs m (zeroRecord m) g.1) cell)
      (fun c hc => hcw c (by rw [hc2]; simp [hc])) hfix1]
    simp only [except_bind_ok]
    rw [ih g.1 (acc ++ [r])
      (cs.foldl (cellApply m scanCols)
        (cellApply m scanCols (setPKs m (zeroRecord m) g.1) cell))
      hgpk hfix2 (fun g2 hg2 => hg g2 (by simp [hg2])) hhd2 hchain2]
    rw [← hspec, List.getLastD_cons, List.getLastD_cons, List.dropLast_cons₂,
      List.append_assoc, List.singleton_append]

/-- C2: on a scan reply consisting of the stored cells of consecutive
distinct rows of one bound table, grouped by row as a key-sorted reply
is, the ScanStruct post-reply decoder appends to the destination exactly
one record per row group, in reply order: each record has its primary-key
fields decoded from the group row prefix, each requested cell (every
cell, when the requested column list is empty) unmarshalled into its
field, and every other non-primary-key field at its zero value; the
in-flight record is appended after the last row.  A reply with no rows
leaves the destination unchanged. -/
theorem scanStruct_post_groups (m : Model) (columns : List Bytes)
    (dest : List Record) (groups : List (List TValue × List (Bytes × PValue)))
    (hwf : m.scanWF) (hg : ∀ g ∈ groups, groupWF m g)
    (hchain : List.Chain' (fun a b => a.1 ≠ b.1) groups) :
    scanStructPost m columns dest ((groups.map (groupRows m)).flatten) =
      .ok (dest ++ groups.map
        (specGroupRecord m (if columns.isEmpty then none else some columns))) ∧
    scanStructPost m columns dest [] = .ok dest := by
  refine ⟨?_, rfl⟩
  cases groups with
  | nil => simp [scanStructPost]
  | cons g gs =>
    obtain ⟨hgpk, hne2, hcw⟩ := hg g (by simp)
    obtain ⟨cell, cs, hc2⟩ : ∃ cell cs, g.2 = cell :: cs := by
      cases hx : g.2 with
      | nil => exact absurd hx hne2
      | cons a b => exact ⟨a, b, rfl⟩
    have hcwc : cellWF m cell = true := hcw cell (by rw [hc2]; simp)
    obtain ⟨kind, v, hfnd, hnp, hum⟩ := cellWF_elim m cell hcwc
    obtain ⟨hhd2, hchain2⟩ := List.chain'_cons'.mp hchain
    have hrows : (((g :: gs).map (groupRows m)).flatten).isEmpty ≠ true := by
      simp [groupRows, hc2]
    rw [scanStructPost, if_neg hrows]
    generalize hsc : (if columns.isEmpty then none else some columns :
      Option (List Bytes)) = scanCols
    have hfix1 : setPKs m (cellApply m scanCols (setPKs m (zeroRecord m) g.1) cell) g.1
        = cellApply m scanCols (setPKs m (zeroRecord m) g.1) cell :=
      cellApply_pk_fixed m scanCols (setPKs m (zeroRecord m) g.1) g.1 cell hnp
        (setPKs_idem m (zeroRecord m) g.1 hwf.2 (List.Forall₂.length_eq hgpk))
    have hfix2 : setPKs m (cs.foldl (cellApply m scanCols)
          (cellApply m scanCols (setPKs m (zeroRecord m) g.1) cell)) g.1
        = cs.foldl (cellApply m scanCols)
            (cellApply m scanCols (setPKs m (zeroRecord m) g.1) cell) :=
      foldl_cellApply_pk_fixed m scanCols g.1 cs
        (cellApply m scanCols (setPKs m (zeroRecord m) g.1) cell)
        (fun c hc => hcw c (by rw [hc2]; simp [hc])) hfix1
    have hspec : specGroupRecord m scanCols g
        = cs.foldl (cellApply m scanCols)
            (cellApply m scanCols (setPKs m (zeroRecord m) g.1) cell) := by
      rw [specGroupRecord, hc2, List.foldl_cons]
    simp only [List.map_cons, List.flatten_cons, List.foldlM_append, groupRows, hc2,
      List.foldlM_cons]
    rw [scanStep_start m scanCols g.1 dest (zeroRecord m) cell hgpk hcwc]
    simp only [except_bind_ok]
    rw [scanStep_cells m scanCols g.1 hgpk cs dest
      (cellApply m scanCols (setPKs m (zeroRecord m) g.1) cell)
      (fun c hc => hcw c (by rw [hc2]; simp [hc])) hfix1]
    simp only [except_bind_ok]
    rw [scanStep_groups m scanCols hwf gs g.1 dest
      (cs.foldl (cellApply m scanCols)
        (cellApply m scanCols (setPKs m (zeroRecord m) g.1) cell))
      hgpk hfix2 (fun g2 hg2 => hg g2 (by simp [hg2])) hhd2 hchain2]
    simp only [← hspec]
    rw [List.append_assoc, dropLast_append_getLastD]

/-- Primary-key matching is decidable. -/
instance (m : Model) (pks : List TValue) : Decidable (pkMatches m pks) :=
  inferInstanceAs (Decidable (List.Forall₂ _ _ _))

/-- Scan well-formedness of a model is decidable. -/
instance (m : Model) : Decidable m.scanWF :=
  inferInstanceAs (Decidable (_ ∧ _))

/-- Group well-formedness is decidable. -/
instance (m : Model) (g : List TValue × List (Bytes × PValue)) :
    Decidable (groupWF m g) :=
  inferInstanceAs (Decidable (_ ∧ _ ∧ _))

/-- A stored reply row group for the User model: id 1 with name and title
cells. -/
def scanG1 : List TValue × List (Bytes × PValue) :=
  ([.str (strb "1")],
   [(strb "name", { Bytes := some (strb "ann") }),
    (strb "title", { Bytes := some (strb "dev") })])

/-- A second group: id 2 with a name cell only. -/
def scanG2 : List TValue × List (Bytes × PValue) :=
  ([.str (strb "2")],
   [(strb "name", { Bytes := some (strb "bob") })])

/-- Witness: the scan decoder on two concrete User row groups appends one
record per row group, and leaves the destination alone on an empty
reply. -/
theorem scanStruct_post_groups_witness :
    scanStructPost userModel [] []
        (([scanG1, scanG2].map (groupRows userModel)).flatten) =
      .ok ([] ++ [scanG1, scanG2].map
        (specGroupRecord userModel
          (if ([] : List Bytes).isEmpty then none else some []))) ∧
    scanStructPost userModel [] [] [] = .ok ([] : List Record) :=
  scanStruct_post_groups userModel [] [] [scanG1, scanG2] (by decide)
    (by decide)
    (by rw [List.chain'_pair]; decide)

end TableClient
